import Mathlib

/-!
# StreamCmd: a shallow embedding of `src/StreamCmd.h`

Bytes (`char`) are natural numbers below 256, memory blocks (`char[]`) are lists of
bytes, data pointers into a block are indices (`none` is `nullptr`), and member
function pointers are numbers (`0` is the null pointer).  The class template
arguments are collected in `Config`.  The command handlers are code of the user
of the class: their effect on the object is given by a `Handlers` record, and
every invocation the engine makes is listed in the result of `dispatch` / `run`.
-/

/-- The template arguments of `StreamCmd`. -/
structure Config where
  CommandBufferSize : Nat
  MaxCommandSize : Nat
  MaxCommands : Nat
  NumCommandSets : Nat
deriving DecidableEq

/-- Command dictionary entry: `char command[MaxCommandSize + 1]` and the callback. -/
structure CommandEntry where
  command : List Nat
  commandCallback : Nat
deriving DecidableEq

instance : Inhabited CommandEntry := ⟨⟨[], 0⟩⟩

/-- A command set: the dictionary array, the `uint8_t` count and the default handler. -/
structure CommandSet where
  m_commandList : List CommandEntry
  m_commandCount : Nat
  m_defaultCallback : Nat
deriving DecidableEq

instance : Inhabited CommandSet := ⟨⟨[], 0, 0⟩⟩

/-- One call of the stream's output side. -/
inductive Printed where
  | print (text : String)
  | println (text : String)
  | printChars (chars : List Nat)
deriving DecidableEq

/-- The data members of `StreamCmd`; `m_stream` is the text written to the stream so far. -/
structure StreamCmd where
  m_stream : List Printed
  m_commandSets : List CommandSet
  m_currentCommandSet : Nat
  m_delimiter : List Nat
  m_eol : Nat
  m_prompt : Option String
  m_commandLine : List Nat
  m_pos : Nat
  m_last : Option Nat
  m_current : Option Nat
deriving DecidableEq

/-- An invocation of a registered callback made by `run`. -/
inductive Call where
  | command (callback : Nat)
  | default (callback : Nat) (arg : List Nat)
deriving DecidableEq

/-- What the callbacks do to the object (they are member functions of a subclass). The
default callback receives the string its `const char*` argument points to. -/
structure Handlers where
  command : Nat → StreamCmd → StreamCmd
  default : Nat → List Nat → StreamCmd → StreamCmd

/-- `GetResult` of the argument getters. -/
inductive GetResult where
  | ArgOk
  | ArgNone
  | ArgInvalid
  | ArgTooSmall
  | ArgTooLarge
  | ArgNoMatch
deriving DecidableEq

/-! ## The C library functions the class calls -/

/-- The string a `char*` points to: the bytes from index `p` up to the first NUL. -/
def cstr (mem : List Nat) (p : Nat) : List Nat :=
  (mem.drop p).takeWhile (fun c => c ≠ 0)

/-- C `isprint` in the "C" locale. -/
def isprint (ch : Nat) : Bool :=
  decide (32 ≤ ch ∧ ch ≤ 126)

/-- C `isspace` in the "C" locale. -/
def isspace (ch : Nat) : Bool :=
  decide (ch = 32 ∨ (9 ≤ ch ∧ ch ≤ 13))

/-- First loop of `strtok_r`: the number of leading bytes that are delimiters. -/
def skipDelims (delim : List Nat) : List Nat → Nat
  | [] => 0
  | c :: m => if c ∈ delim then skipDelims delim m + 1 else 0

/-- Second loop of `strtok_r`: the number of bytes before the next delimiter or NUL. -/
def tokenEnd (delim : List Nat) : List Nat → Nat
  | [] => 0
  | c :: m => if c = 0 ∨ c ∈ delim then 0 else tokenEnd delim m + 1

/-- Result of `strtok_r`: the returned pointer, the memory block and `*lasts`. -/
structure StrtokResult where
  token : Option Nat
  mem : List Nat
  lasts : Option Nat
deriving DecidableEq

/-- C `strtok_r(s, delim, &lasts)` on the block `mem`, after newlib: with `s` and `*lasts`
both null it returns null; leading delimiters are skipped; when only the terminator is
left it returns null and clears `*lasts`; otherwise the token runs to the next delimiter,
which is overwritten by NUL (`*lasts` then points behind it), or to the terminator
(`*lasts` is cleared). `delim` is the delimiter string without its terminator. -/
def strtok_r (mem : List Nat) (s : Option Nat) (delim : List Nat) (lasts : Option Nat) :
    StrtokResult :=
  match s.orElse (fun _ => lasts) with
  | none => ⟨none, mem, lasts⟩
  | some p =>
    let tok := p + skipDelims delim (mem.drop p)
    if mem.getD tok 0 = 0 then ⟨none, mem, none⟩
    else
      let e := tok + tokenEnd delim (mem.drop tok)
      if mem.getD e 0 = 0 then ⟨some tok, mem, none⟩
      else ⟨some tok, mem.set e 0, some (e + 1)⟩

/-- C `strncmp(a, b, n)`: at most `n` bytes are compared, stopping at a NUL. -/
def strncmp : List Nat → List Nat → Nat → Int
  | _, _, 0 => 0
  | a, b, n + 1 =>
    if a.headD 0 ≠ b.headD 0 then (a.headD 0 : Int) - (b.headD 0 : Int)
    else if a.headD 0 = 0 then 0
    else strncmp a.tail b.tail n

/-- C `strcmp(a, b)`. -/
def strcmp : List Nat → List Nat → Int
  | [], b => - (b.headD 0 : Int)
  | c :: a, b =>
    if c ≠ b.headD 0 then (c : Int) - (b.headD 0 : Int)
    else if c = 0 then 0
    else strcmp a b.tail

/-- C `strncpy(dest, src, n)`: exactly `n` bytes of `dest` are written, the bytes of `src`
up to its terminator and NUL from there on. -/
def strncpy : List Nat → List Nat → Nat → List Nat
  | dest, _, 0 => dest
  | [], _, _ + 1 => []
  | _ :: dest, [], n + 1 => 0 :: strncpy dest [] n
  | _ :: dest, c :: src, n + 1 =>
    if c = 0 then 0 :: strncpy dest [] n else c :: strncpy dest src n

/-- A search loop `for (i = ...; i < ...; i++) if (test(i)) ...` that leaves at the first
hit: the first index among `i, i + 1, ..., i + n - 1` at which `test` holds. -/
def firstIndex (test : Nat → Bool) : Nat → Nat → Option Nat
  | 0, _ => none
  | n + 1, i => if test i then some i else firstIndex test n (i + 1)

/-! ## `strtol` and `strtoul` -/

/-- The widths in bits of `int`, `long` and `long long` on the target (`<climits>`). -/
structure Limits where
  intBits : Nat
  longBits : Nat
  llongBits : Nat
deriving DecidableEq

/-- Least value of a signed type of the given width (`INT_MIN`, `LONG_MIN`, ...). -/
def signedMin (bits : Nat) : Int := -(2 ^ (bits - 1) : Int)

/-- Greatest value of a signed type of the given width (`INT_MAX`, `LONG_MAX`, ...). -/
def signedMax (bits : Nat) : Int := (2 ^ (bits - 1) : Int) - 1

/-- Greatest value of an unsigned type of the given width (`UINT_MAX`, ...). -/
def unsignedMax (bits : Nat) : Int := (2 ^ bits : Int) - 1

/-- Conversion of an integer value to a signed type of the given width. -/
def toSigned (bits : Nat) (v : Int) : Int :=
  (v + 2 ^ (bits - 1)) % 2 ^ bits - 2 ^ (bits - 1)

/-- Conversion of an integer value to an unsigned type of the given width. -/
def toUnsigned (bits : Nat) (v : Int) : Int :=
  v % 2 ^ bits

/-- The value of a byte as a digit: `0`-`9`, then letters of either case from ten on. -/
def digitValue (c : Nat) : Option Nat :=
  if 48 ≤ c ∧ c ≤ 57 then some (c - 48)
  else if 65 ≤ c ∧ c ≤ 90 then some (c - 65 + 10)
  else if 97 ≤ c ∧ c ≤ 122 then some (c - 97 + 10)
  else none

/-- The digit loop of the `strtol` family: the value accumulated from `acc` over the
leading digits below `base`, and the number of digits read. -/
def scanDigits (base : Nat) : List Nat → Nat → Nat × Nat
  | [], acc => (acc, 0)
  | c :: cs, acc =>
    match digitValue c with
    | some d =>
      if d < base then ((scanDigits base cs (acc * base + d)).1,
        (scanDigits base cs (acc * base + d)).2 + 1)
      else (acc, 0)
    | none => (acc, 0)

/-- The subject sequence the `strtol` family finds: sign, magnitude and the number of
bytes up to its end (`0` when there is no digit, so that `endptr == nptr`). -/
structure Subject where
  negative : Bool
  magnitude : Nat
  consumed : Nat
deriving DecidableEq

/-- Parsing shared by `strtol` and `strtoul` (ISO C 7.22.1.4): white space, an optional
sign, for base 16 or 0 an optional `0x` before a hexadecimal digit, then the digits. -/
def parseSubject (nptr : List Nat) (base : Nat) : Subject :=
  let ws := (nptr.takeWhile isspace).length
  let s1 := nptr.drop ws
  let sg := if s1.head? = some 45 ∨ s1.head? = some 43 then 1 else 0
  let s2 := s1.drop sg
  let hex : Bool := decide ((base = 0 ∨ base = 16) ∧ s2.head? = some 48 ∧
    (s2.get? 1 = some 120 ∨ s2.get? 1 = some 88) ∧
    ((s2.get? 2).bind digitValue).any (fun d => d < 16))
  let b := if hex then 16 else if base = 0 then (if s2.head? = some 48 then 8 else 10) else base
  let r := scanDigits b (if hex then s2.drop 2 else s2) 0
  if r.2 = 0 then ⟨false, 0, 0⟩
  else ⟨decide (s1.head? = some 45), r.1, ws + sg + (if hex then 2 else 0) + r.2⟩

/-- What a `strtoX` call leaves: the value returned, `endptr - nptr` and `errno`. -/
structure StrtoResult (TI : Type) where
  value : TI
  consumed : Nat
  errno : Nat

/-- C `strtol` (and `strtoll`) for a result type of `bits` bits: an unsupported base gives
`EINVAL`, a value out of range the nearest limit and `ERANGE`. -/
def strtol (bits : Nat) (nptr : List Nat) (base : Int) : StrtoResult Int :=
  if base < 0 ∨ base = 1 ∨ base > 36 then ⟨0, 0, 22⟩
  else
    let p := parseSubject nptr base.toNat
    let v : Int := if p.negative then -(p.magnitude : Int) else p.magnitude
    if v > signedMax bits then ⟨signedMax bits, p.consumed, 34⟩
    else if v < signedMin bits then ⟨signedMin bits, p.consumed, 34⟩
    else ⟨v, p.consumed, 0⟩

/-- C `strtoul` (and `strtoull`) for a result type of `bits` bits: a magnitude out of range
gives the greatest value and `ERANGE`; a minus sign negates in the unsigned type. -/
def strtoul (bits : Nat) (nptr : List Nat) (base : Int) : StrtoResult Int :=
  if base < 0 ∨ base = 1 ∨ base > 36 then ⟨0, 0, 22⟩
  else
    let p := parseSubject nptr base.toNat
    if (p.magnitude : Int) > unsignedMax bits then ⟨unsignedMax bits, p.consumed, 34⟩
    else ⟨if p.negative then toUnsigned bits (-(p.magnitude : Int)) else p.magnitude,
      p.consumed, 0⟩

namespace StreamCmd

/-! ## The class -/

/-- The constructor. `m_commandSets` is not in the initialiser list: it keeps what its
storage holds (`sets`), zeroes for an object of static storage duration. The parameter
`eol` is a `char`: the argument is reduced to a byte. -/
def init (cfg : Config) (sets : List CommandSet) (eol : Nat) (prompt : Option String) :
    StreamCmd where
  m_stream := []
  m_commandSets := sets
  m_currentCommandSet := 0
  m_delimiter := [32, 0]
  m_eol := eol % 256
  m_prompt := prompt
  m_commandLine := List.replicate (cfg.CommandBufferSize + 1) 0
  m_pos := 0
  m_last := none
  m_current := none

/-- Zero-initialised storage for `m_commandSets`. -/
def zeroSets (cfg : Config) : List CommandSet :=
  List.replicate cfg.NumCommandSets
    ⟨List.replicate cfg.MaxCommands ⟨List.replicate (cfg.MaxCommandSize + 1) 0, 0⟩, 0, 0⟩

/-- The private accessor `set()`. -/
def set (s : StreamCmd) : CommandSet :=
  s.m_commandSets.getD s.m_currentCommandSet default

/-- Assignment through the reference `set()` returns. -/
def modifySet (s : StreamCmd) (f : CommandSet → CommandSet) : StreamCmd :=
  { s with m_commandSets := s.m_commandSets.modify f s.m_currentCommandSet }

/-- Clear input buffer. -/
def clearBuffer (s : StreamCmd) : StreamCmd :=
  { s with m_commandLine := s.m_commandLine.set 0 0, m_pos := 0 }

/-- Switch the command set. The parameter is a `uint8_t`: the argument of a call is
converted to it, that is reduced modulo 256, before the comparison with `NumCommandSets`
(a `size_t`). -/
def switchCommandSet (cfg : Config) (set : Nat) (s : StreamCmd) : Bool × StreamCmd :=
  if set % 256 ≥ cfg.NumCommandSets then (false, s)
  else (true, { s with m_currentCommandSet := set % 256 })

/-- Get the current active command set. -/
def getCommandSet (s : StreamCmd) : Nat :=
  s.m_currentCommandSet

/-- Get the number of registered commands. The parameter is a `uint8_t`, as that of
`switchCommandSet`. -/
def getNumCommandsRegistered (cfg : Config) (set : Nat) (s : StreamCmd) : Nat :=
  if set % 256 ≥ cfg.NumCommandSets then 0
  else (s.m_commandSets.getD (set % 256) default).m_commandCount

/-- Get next command line token: `m_current = strtok_r(nullptr, m_delimiter, &m_last)`. -/
def next (s : StreamCmd) : Option Nat × StreamCmd :=
  let r := strtok_r s.m_commandLine none (cstr s.m_delimiter 0) s.m_last
  (r.token, { s with m_commandLine := r.mem, m_last := r.lasts, m_current := r.token })

/-- The token `next()` returned last. -/
def current (s : StreamCmd) : Option Nat :=
  s.m_current

/-- The string a token pointer of the command line points to. -/
def tokenString (s : StreamCmd) (p : Nat) : List Nat :=
  cstr s.m_commandLine p

/-- Add a command to the current command set. There is no `return` after the overflow
message: the store through `e` goes to index `count` of `m_commandList` and the count is
incremented in every case. A store at an index outside the array (undefined in C++)
changes nothing here. -/
def addCommand (cfg : Config) (command : List Nat) (commandCallback : Nat) (s : StreamCmd) :
    StreamCmd :=
  let count := s.set.m_commandCount
  let s1 :=
    if count = cfg.MaxCommands then
      { s with m_stream := s.m_stream ++
          [Printed.print "StreamCmd command list overflow, dropping command \"",
           Printed.printChars (cstr command 0),
           Printed.println "\", increase StreamCmd's MaxCommands template argument"] }
    else s
  s1.modifySet fun cs =>
    { cs with
      m_commandList := cs.m_commandList.modify
        (fun e => ⟨strncpy e.command command cfg.MaxCommandSize, commandCallback⟩) count
      m_commandCount := (count + 1) % 256 }

/-- Set the default handler of the current command set. -/
def setDefaultHandler (defaultCallback : Nat) (s : StreamCmd) : StreamCmd :=
  s.modifySet fun cs => { cs with m_defaultCallback := defaultCallback }

/-- The `for` loop of `run` up to its `break`: the index of the first entry below
`m_commandCount` with `strncmp(command, entry.command, MaxCommandSize) == 0`. -/
def findCommand (cfg : Config) (cs : CommandSet) (command : List Nat) : Option Nat :=
  firstIndex
    (fun i => decide
      (strncmp command (cs.m_commandList.getD i default).command cfg.MaxCommandSize = 0))
    cs.m_commandCount 0

/-- The tokenizing step of the end-of-line branch (the first `strtok_r` call and the
assignment to `m_current`): the command token and the state the callbacks are called in. -/
def tokenizeLine (s : StreamCmd) : Option Nat × StreamCmd :=
  let r := strtok_r s.m_commandLine (some 0) (cstr s.m_delimiter 0) s.m_last
  (r.token, { s with m_commandLine := r.mem, m_last := r.lasts, m_current := r.token })

/-- The end of the end-of-line branch: print the prompt, if there is one, and clear the
buffer. -/
def finishLine (s : StreamCmd) : StreamCmd :=
  match s.m_prompt with
  | some p =>
    clearBuffer { s with m_stream := s.m_stream ++ [Printed.print p, Printed.print "> "] }
  | none => clearBuffer s

/-- The end-of-line branch of `run`: tokenize the command line, look the command up in
the current set and call its callback; when nothing was executed and the set has a
default callback call that one with the command, or `""` when there is none; then print
the prompt and clear the buffer. The second component lists the callbacks called. -/
def dispatch (cfg : Config) (h : Handlers) (s : StreamCmd) : StreamCmd × List Call :=
  let s1 := (tokenizeLine s).2
  let found : Option Nat :=
    match (tokenizeLine s).1 with
    | some command => findCommand cfg s1.set (s1.m_commandLine.drop command)
    | none => none
  match found with
  | some i =>
    let cb := (s1.set.m_commandList.getD i default).commandCallback
    (finishLine (h.command cb s1), [Call.command cb])
  | none =>
    if s1.set.m_defaultCallback ≠ 0 then
      let arg := match (tokenizeLine s).1 with
        | some command => cstr s1.m_commandLine command
        | none => []
      (finishLine (h.default s1.set.m_defaultCallback arg s1),
        [Call.default s1.set.m_defaultCallback arg])
    else (finishLine s1, [])

/-- The message printed when a printable byte arrives and the line buffer is full. -/
def overflowMessage : Printed :=
  Printed.println
    "StreamCmd line buffer overflow -- increase StreamCmd's CommandBufferSize template argument"

/-- One iteration of the loop of `run` on the value `raw` read from the stream
(`char ch = raw`); `m_pos` is a `uint8_t`. -/
def step (cfg : Config) (h : Handlers) (raw : Nat) (s : StreamCmd) : StreamCmd × List Call :=
  let ch := raw % 256
  if ch = s.m_eol then dispatch cfg h s
  else if isprint ch then
    if s.m_pos < cfg.CommandBufferSize then
      ({ s with
          m_commandLine := (s.m_commandLine.set s.m_pos ch).set ((s.m_pos + 1) % 256) 0
          m_pos := (s.m_pos + 1) % 256 }, [])
    else ({ s with m_stream := s.m_stream ++ [overflowMessage] }, [])
  else (s, [])

/-- Read the stream and run the CLI engine: `input` holds the bytes the stream has
available, in the order `read()` returns them (`read()` returns `-1` only when nothing is
available, which the loop condition excludes). The callbacks do not read the stream. -/
def run (cfg : Config) (h : Handlers) : List Nat → StreamCmd → StreamCmd × List Call
  | [], s => (s, [])
  | raw :: input, s =>
    let r := step cfg h raw s
    let r2 := run cfg h input r.1
    (r2.1, r.2 ++ r2.2)

/-! ## Argument getters -/

/-- The template `getNum<T, TI>(num, min, max, base, strtoX)`. `lt` and `gt` are the
comparisons `_num < min` and `_num > max` between a `TI` and a `T`, `conv` the
conversion of `num = _num`. The second component is `num` after the call. -/
def getNum {T TI : Type} (lt gt : TI → T → Bool) (conv : TI → T)
    (strtoX : List Nat → Int → StrtoResult TI)
    (num min max : T) (base : Int) (s : StreamCmd) : GetResult × T × StreamCmd :=
  match s.next with
  | (none, s1) => (GetResult.ArgNone, num, s1)
  | (some arg, s1) =>
    let r := strtoX (s1.m_commandLine.drop arg) base
    if r.errno ≠ 0 ∨ r.consumed = 0 then (GetResult.ArgInvalid, num, s1)
    else if lt r.value min then (GetResult.ArgTooSmall, num, s1)
    else if gt r.value max then (GetResult.ArgTooLarge, num, s1)
    else (GetResult.ArgOk, conv r.value, s1)

/-- The comparison `_num < min` on integer types. -/
def intLt (a b : Int) : Bool := decide (a < b)

/-- The comparison `_num > max` on integer types. -/
def intGt (a b : Int) : Bool := decide (a > b)

/-- `getInt(n, min, max, base)`: `getNum<int, long>` with `strtol`. -/
def getInt (lim : Limits) (n min max : Int) (base : Int) (s : StreamCmd) :
    GetResult × Int × StreamCmd :=
  getNum intLt intGt (toSigned lim.intBits) (strtol lim.longBits) n min max base s

/-- `getUInt(n, min, max, base)`: `getNum<unsigned int, unsigned long>` with `strtoul`. -/
def getUInt (lim : Limits) (n min max : Int) (base : Int) (s : StreamCmd) :
    GetResult × Int × StreamCmd :=
  getNum intLt intGt (toUnsigned lim.intBits) (strtoul lim.longBits) n min max base s

/-- `getLong(n, min, max, base)`: `getNum<long, long>` with `strtol`. -/
def getLong (lim : Limits) (n min max : Int) (base : Int) (s : StreamCmd) :
    GetResult × Int × StreamCmd :=
  getNum intLt intGt (toSigned lim.longBits) (strtol lim.longBits) n min max base s

/-- `getULong(n, min, max, base)`: `getNum<unsigned long, unsigned long>` with `strtoul`. -/
def getULong (lim : Limits) (n min max : Int) (base : Int) (s : StreamCmd) :
    GetResult × Int × StreamCmd :=
  getNum intLt intGt (toUnsigned lim.longBits) (strtoul lim.longBits) n min max base s

/-- `getLLong(n, min, max, base)`: `getNum<long long, long long>` with `strtoll`. -/
def getLLong (lim : Limits) (n min max : Int) (base : Int) (s : StreamCmd) :
    GetResult × Int × StreamCmd :=
  getNum intLt intGt (toSigned lim.llongBits) (strtol lim.llongBits) n min max base s

/-- `getULLong(n, min, max, base)`: `getNum<unsigned long long, unsigned long long>` with
`strtoull`. -/
def getULLong (lim : Limits) (n min max : Int) (base : Int) (s : StreamCmd) :
    GetResult × Int × StreamCmd :=
  getNum intLt intGt (toUnsigned lim.llongBits) (strtoul lim.llongBits) n min max base s

/-- The loop of `getOption`: the first index below `size` with
`strcmp(options[i], arg) == 0`. -/
def findOption (options : List (List Nat)) (arg : List Nat) (size : Nat) : Option Nat :=
  firstIndex (fun i => decide (strcmp (options.getD i []) arg = 0)) size 0

/-- `getOption(idx, options, size)`. The second component is `idx` after the call. -/
def getOption (idx : Nat) (options : List (List Nat)) (size : Nat) (s : StreamCmd) :
    GetResult × Nat × StreamCmd :=
  match s.next with
  | (none, s1) => (GetResult.ArgNone, idx, s1)
  | (some arg, s1) =>
    match findOption options (s1.m_commandLine.drop arg) size with
    | some i => (GetResult.ArgOk, i, s1)
    | none => (GetResult.ArgNoMatch, idx, s1)

/-- The variadic `getOption(idx, vals...)`: the candidates become an array of `N`
pointers, `N` the number of candidates. -/
def getOptionVals (idx : Nat) (vals : List (List Nat)) (s : StreamCmd) :
    GetResult × Nat × StreamCmd :=
  getOption idx vals vals.length s

/-! ## Notions the properties are stated with -/

/-- The results of `n` successive `next()` calls, each as the string it points to. -/
def nextN : Nat → StreamCmd → List (Option (List Nat))
  | 0, _ => []
  | n + 1, s => (s.next.1.map s.next.2.tokenString) :: nextN n s.next.2

/-- The maximal non-empty delimiter-free substrings of a line, in order: the line is
split at every delimiter byte and the empty pieces are left out. -/
def tokens (delim : List Nat) (line : List Nat) : List (List Nat) :=
  (line.splitOnP (fun c => decide (c ∈ delim))).filter (fun t => !t.isEmpty)

/-- The bytes of a text. -/
def ascii (text : String) : List Nat :=
  text.toList.map Char.toNat

/-- Callbacks that leave the object as it is. -/
def idle : Handlers where
  command := fun _ s => s
  default := fun _ _ s => s

/-- Callbacks that print their identity to the stream, the default callback with the
command it was passed. -/
def echo : Handlers where
  command := fun cb s => { s with m_stream := s.m_stream ++ [Printed.printChars [cb]] }
  default := fun cb command s =>
    { s with m_stream := s.m_stream ++ [Printed.printChars (cb :: command)] }

/-- The template's default arguments (`StreamCmdDefault`). -/
def defaultConfig : Config := ⟨32, 8, 32, 1⟩

/-- A `StreamCmdDefault` object of static storage duration with end of line `'\n'` and
no prompt. -/
def fresh : StreamCmd := init defaultConfig (zeroSets defaultConfig) 10 none

/-- The object `fresh` after `addCommand("set", 1)` and `addCommand("get", 2)`. -/
def demo : StreamCmd :=
  (fresh.addCommand defaultConfig (ascii "set") 1).addCommand defaultConfig (ascii "get") 2

/-- The object `demo` after `setDefaultHandler(9)`. -/
def demoDefault : StreamCmd := demo.setDefaultHandler 9

/-- Template arguments with a line buffer of 256 characters. -/
def wideConfig : Config := ⟨256, 8, 32, 1⟩

/-- An object with the template arguments `wideConfig` and the default callback 9. -/
def wide : StreamCmd :=
  (init wideConfig (zeroSets wideConfig) 10 none).setDefaultHandler 9

/-- Template arguments with command names of three characters. -/
def shortConfig : Config := ⟨32, 3, 32, 1⟩

/-- An object with the template arguments `shortConfig`. -/
def short : StreamCmd := init shortConfig (zeroSets shortConfig) 10 none

/-- A target with 32-bit `int` and `long` and 64-bit `long long`. -/
def ilp32 : Limits := ⟨32, 32, 64⟩

/-- A target with 32-bit `int` and 64-bit `long` and `long long`. -/
def lp64 : Limits := ⟨32, 64, 64⟩

/-- The state the callback of a command is called in when the line `text` has been read
by `fresh` and the end of line arrives. -/
def called (text : String) : StreamCmd :=
  (tokenizeLine (run defaultConfig idle (ascii text) fresh).1).2

/-- Whether a byte is a decimal digit character. -/
def isDecimalDigit (c : Nat) : Bool :=
  decide (48 ≤ c ∧ c ≤ 57)

/-- A base-10 numeral: an optional minus sign and the decimal digits `ds`, the most
significant first. -/
def numeralString (negative : Bool) (ds : List Nat) : List Nat :=
  (if negative then [45] else []) ++ ds.map (fun d => d + 48)

/-- The integer a base-10 numeral denotes. -/
def numeralValue (negative : Bool) (ds : List Nat) : Int :=
  if negative then -((Nat.ofDigits 10 ds.reverse : Nat) : Int)
  else ((Nat.ofDigits 10 ds.reverse : Nat) : Int)

/-- A token without a parseable decimal number: it does not start with white space and,
behind an optional sign, does not go on with a decimal digit. -/
def noNumber : List Nat → Bool
  | [] => true
  | c :: cs =>
    !isspace c &&
      (if c = 43 ∨ c = 45 then !(cs.head?.any isDecimalDigit) else !isDecimalDigit c)

/-- Successive `addCommand(name, callback)` calls, one per element of the list. -/
def addCommands (cfg : Config) : List (List Nat × Nat) → StreamCmd → StreamCmd
  | [], s => s
  | c :: rest, s => addCommands cfg rest (s.addCommand cfg c.1 c.2)

/-- Template arguments with two command sets of two commands each. -/
def tinyConfig : Config := ⟨32, 8, 2, 2⟩

/-- An object of static storage duration with the template arguments `tinyConfig`. -/
def tiny : StreamCmd := init tinyConfig (zeroSets tinyConfig) 10 none

/-- The object `tiny` after `addCommand("a", 1)` and `addCommand("b", 2)`: the table of
set 0 is full. -/
def tinyFull : StreamCmd := addCommands tinyConfig [(ascii "a", 1), (ascii "b", 2)] tiny

/-- Template arguments with 300 command sets. -/
def setsConfig : Config := ⟨32, 8, 2, 300⟩

/-- An object of static storage duration with the template arguments `setsConfig`. -/
def sets : StreamCmd := init setsConfig (zeroSets setsConfig) 10 none

/-- Template arguments with room for 256 commands. -/
def manyConfig : Config := ⟨32, 8, 256, 1⟩

/-- An object of static storage duration with the template arguments `manyConfig`. -/
def many : StreamCmd := init manyConfig (zeroSets manyConfig) 10 none

/-! ### The integer getters and their default bounds -/

/-- The integer getters the macro `STREAM_CMD_MAKE_GETTER_B` defines. -/
inductive IntGetter where
  | getInt
  | getUInt
  | getLong
  | getULong
  | getLLong
  | getULLong
deriving DecidableEq

/-- Whether the types `T` and `TI` of the getter are signed. -/
def IntGetter.isSigned : IntGetter → Bool
  | .getInt => true
  | .getUInt => false
  | .getLong => true
  | .getULong => false
  | .getLLong => true
  | .getULLong => false

/-- The macro argument `MIN`, the default of the parameter `min`. -/
def IntGetter.MIN (lim : Limits) : IntGetter → Int
  | .getInt => signedMin lim.intBits
  | .getUInt => 0
  | .getLong => signedMin lim.longBits
  | .getULong => 0
  | .getLLong => signedMin lim.llongBits
  | .getULLong => 0

/-- The macro argument `MAX`, the default of the parameter `max`. -/
def IntGetter.MAX (lim : Limits) : IntGetter → Int
  | .getInt => signedMax lim.intBits
  | .getUInt => unsignedMax lim.intBits
  | .getLong => signedMax lim.longBits
  | .getULong => unsignedMax lim.longBits
  | .getLLong => signedMax lim.llongBits
  | .getULLong => unsignedMax lim.llongBits

/-- A call `NAME(n, min, max, base)` of an integer getter. -/
def IntGetter.call (g : IntGetter) (lim : Limits) (n min max : Int) (base : Int)
    (s : StreamCmd) : GetResult × Int × StreamCmd :=
  match g with
  | .getInt => StreamCmd.getInt lim n min max base s
  | .getUInt => StreamCmd.getUInt lim n min max base s
  | .getLong => StreamCmd.getLong lim n min max base s
  | .getULong => StreamCmd.getULong lim n min max base s
  | .getLLong => StreamCmd.getLLong lim n min max base s
  | .getULLong => StreamCmd.getULLong lim n min max base s

/-- A call `NAME(n)` of an integer getter: the bounds and the base take their defaults. -/
def IntGetter.callDefault (g : IntGetter) (lim : Limits) (n : Int) (s : StreamCmd) :
    GetResult × Int × StreamCmd :=
  g.call lim n (g.MIN lim) (g.MAX lim) 10 s

/-! ### The floating-point getters -/

/-- The constants of `<cfloat>` the floating-point getters use. Finite floating-point
values are rational numbers. -/
structure FloatLimits where
  FLT_MIN : ℚ
  FLT_MAX : ℚ
  DBL_MIN : ℚ
  DBL_MAX : ℚ
  LDBL_MIN : ℚ
  LDBL_MAX : ℚ

/-- The constants for IEEE 754 single and double precision, `long double` being a
double: `FLT_MIN` and `DBL_MIN` are the least positive normalized numbers. -/
def ieee : FloatLimits where
  FLT_MIN := 1 / 2 ^ 126
  FLT_MAX := (2 ^ 24 - 1) * 2 ^ 104
  DBL_MIN := 1 / 2 ^ 1022
  DBL_MAX := (2 ^ 53 - 1) * 2 ^ 971
  LDBL_MIN := 1 / 2 ^ 1022
  LDBL_MAX := (2 ^ 53 - 1) * 2 ^ 971

/-- The comparison `_num < min` on floating-point values. -/
def ratLt (a b : ℚ) : Bool := decide (a < b)

/-- The comparison `_num > max` on floating-point values. -/
def ratGt (a b : ℚ) : Bool := decide (a > b)

/-- `getFloat(n, min, max)`: `getNum<float, double>` with `_strtod`, which passes the
string to `strtod` and ignores the base; `toFloat` is the conversion of a `double` to
`float`. -/
def getFloat (strtod : List Nat → StrtoResult ℚ) (toFloat : ℚ → ℚ) (n min max : ℚ)
    (s : StreamCmd) : GetResult × ℚ × StreamCmd :=
  getNum ratLt ratGt toFloat (fun str _ => strtod str) n min max 10 s

/-- `getDouble(n, min, max)`: `getNum<double, double>` with `_strtod`. -/
def getDouble (strtod : List Nat → StrtoResult ℚ) (n min max : ℚ) (s : StreamCmd) :
    GetResult × ℚ × StreamCmd :=
  getNum ratLt ratGt id (fun str _ => strtod str) n min max 10 s

/-- `getLDouble(n, min, max)`: `getNum<long double, long double>` with `_strtold`. -/
def getLDouble (strtold : List Nat → StrtoResult ℚ) (n min max : ℚ) (s : StreamCmd) :
    GetResult × ℚ × StreamCmd :=
  getNum ratLt ratGt id (fun str _ => strtold str) n min max 10 s

/-- C `strtod` and `strtold` on a string that starts with a decimal integer numeral
(white space, an optional sign, decimal digits) which no fraction, exponent or further
digit continues: the value of the numeral, read to its end, and no error. Other strings
are outside this description. -/
def strtodInteger (nptr : List Nat) : StrtoResult ℚ :=
  ⟨if (parseSubject nptr 10).negative then -((parseSubject nptr 10).magnitude : ℚ)
    else ((parseSubject nptr 10).magnitude : ℚ), (parseSubject nptr 10).consumed, 0⟩

/-! ### Numerals in a base -/

/-- Whether `cs` is a non-empty string of digit characters of the base `base`. -/
def validDigits (base : Nat) (cs : List Nat) : Bool :=
  !cs.isEmpty && cs.all (fun c => (digitValue c).any (fun d => decide (d < base)))

/-- The number a string of digit characters denotes in the base `base`, the most
significant digit first. -/
def digitsValue (base : Nat) (cs : List Nat) : Nat :=
  Nat.ofDigits base ((cs.map (fun c => (digitValue c).getD 0)).reverse)

/-- A numeral: an optional minus sign and digit characters. -/
def signedString (negative : Bool) (cs : List Nat) : List Nat :=
  (if negative then [45] else []) ++ cs

/-- The integer a numeral denotes in the base `base`. -/
def signedValue (base : Nat) (negative : Bool) (cs : List Nat) : Int :=
  if negative then -((digitsValue base cs : Nat) : Int) else ((digitsValue base cs : Nat) : Int)

/-! ### The line buffer invariant and the course of `run` -/

/-- The invariant of the line buffer: the array has `CommandBufferSize + 1` bytes, the
write position is at most `CommandBufferSize` and the byte there is the terminator. -/
def BufferInv (cfg : Config) (s : StreamCmd) : Prop :=
  s.m_commandLine.length = cfg.CommandBufferSize + 1 ∧ s.m_pos ≤ cfg.CommandBufferSize ∧
    s.m_commandLine[s.m_pos]? = some 0

instance (cfg : Config) (s : StreamCmd) : Decidable (BufferInv cfg s) := by
  unfold BufferInv
  infer_instance

/-- Callbacks under which the line buffer keeps its size, as an array does. -/
def KeepsBufferSize (h : Handlers) : Prop :=
  (∀ cb s, (h.command cb s).m_commandLine.length = s.m_commandLine.length) ∧
  ∀ cb arg s, (h.default cb arg s).m_commandLine.length = s.m_commandLine.length

/-- The index `strtok_r` stores a NUL at, when it stores one: the delimiter that ends
the token found. -/
def strtokStore (mem : List Nat) (s : Option Nat) (delim : List Nat) (lasts : Option Nat) :
    Option Nat :=
  match s.orElse (fun _ => lasts) with
  | none => none
  | some p =>
    let tok := p + skipDelims delim (mem.drop p)
    if mem.getD tok 0 = 0 then none
    else
      let e := tok + tokenEnd delim (mem.drop tok)
      if mem.getD e 0 = 0 then none else some e

/-- The indices of `m_commandLine` one iteration of the loop of `run` stores to by
itself (the callbacks apart): at the end of line the store of `strtok_r` and the one of
`clearBuffer`, for a printable byte that fits the byte and the terminator. -/
def stepStores (cfg : Config) (raw : Nat) (s : StreamCmd) : List Nat :=
  if raw % 256 = s.m_eol then
    (strtokStore s.m_commandLine (some 0) (cstr s.m_delimiter 0) s.m_last).toList ++ [0]
  else if isprint (raw % 256) then
    if s.m_pos < cfg.CommandBufferSize then [s.m_pos, (s.m_pos + 1) % 256] else []
  else []

end StreamCmd

namespace StreamCmd

/-! ## Memory blocks -/

theorem getD_length_add (pre suf : List Nat) (k : Nat) :
    (pre ++ suf).getD (pre.length + k) 0 = suf.getD k 0 := by
  induction pre with
  | nil => simp
  | cons a pre ih =>
    have : (a :: pre).length + k = (pre.length + k) + 1 := by simp; omega
    rw [List.cons_append, this, List.getD_cons_succ]; exact ih

theorem set_length_add (pre suf : List Nat) (k v : Nat) :
    (pre ++ suf).set (pre.length + k) v = pre ++ suf.set k v := by
  induction pre with
  | nil => simp
  | cons a pre ih =>
    have : (a :: pre).length + k = (pre.length + k) + 1 := by simp; omega
    rw [List.cons_append, this, List.set_cons_succ, ih]; rfl

theorem drop_length_add (pre suf : List Nat) (k : Nat) :
    (pre ++ suf).drop (pre.length + k) = suf.drop k := by
  induction pre with
  | nil => simp
  | cons a pre ih =>
    have : (a :: pre).length + k = (pre.length + k) + 1 := by simp; omega
    rw [List.cons_append, this, List.drop_succ_cons]; exact ih

/-- Every list splits into a longest run of elements with `p` and a rest that does not
start with one. -/
theorem exists_run (p : Nat → Prop) [DecidablePred p] (l : List Nat) :
    ∃ a b, l = a ++ b ∧ (∀ x ∈ a, p x) ∧ (∀ x, b.head? = some x → ¬ p x) := by
  induction l with
  | nil => exact ⟨[], [], rfl, by simp, by simp⟩
  | cons c l ih =>
    by_cases hc : p c
    · obtain ⟨a, b, hl, ha, hb⟩ := ih
      refine ⟨c :: a, b, by simp [hl], ?_, hb⟩
      intro x hx
      rcases List.mem_cons.1 hx with h | h
      · exact h ▸ hc
      · exact ha x h
    · exact ⟨[], c :: l, rfl, by simp, by intro x hx; simp at hx; exact hx ▸ hc⟩

theorem cstr_zero_not_mem (mem : List Nat) (p : Nat) : 0 ∉ cstr mem p := by
  intro h
  have := List.mem_takeWhile_imp h
  simp at this

theorem cstr_append_zero (pre t rest : List Nat) (ht : ∀ c ∈ t, c ≠ 0) :
    cstr (pre ++ t ++ 0 :: rest) pre.length = t := by
  unfold cstr
  have h := drop_length_add pre (t ++ 0 :: rest) 0
  simp only [Nat.add_zero, List.drop_zero] at h
  rw [List.append_assoc, h]
  clear h
  induction t with
  | nil => simp
  | cons c t ih =>
    have hc : c ≠ 0 := ht c (List.mem_cons_self _ _)
    rw [List.cons_append, List.takeWhile_cons]
    simp only [ne_eq, hc, not_false_eq_true, decide_True, ↓reduceIte]
    rw [ih (fun x hx => ht x (List.mem_cons_of_mem _ hx))]

theorem skipDelims_run (delim a b : List Nat) (ha : ∀ x ∈ a, x ∈ delim)
    (hb : ∀ x, b.head? = some x → ¬ x ∈ delim) : skipDelims delim (a ++ b) = a.length := by
  induction a with
  | nil =>
    cases b with
    | nil => rfl
    | cons c b => simp [skipDelims, hb c rfl]
  | cons c a ih =>
    simp [skipDelims, ha c (List.mem_cons_self _ _),
      ih (fun x hx => ha x (List.mem_cons_of_mem _ hx))]

theorem tokenEnd_run (delim a b : List Nat) (ha : ∀ x ∈ a, ¬ (x = 0 ∨ x ∈ delim))
    (hb : ∀ x, b.head? = some x → (x = 0 ∨ x ∈ delim)) :
    tokenEnd delim (a ++ b) = a.length := by
  induction a with
  | nil =>
    cases b with
    | nil => rfl
    | cons c b => simp only [List.nil_append, tokenEnd, hb c rfl, ↓reduceIte, List.length_nil]
  | cons c a ih =>
    have := ih (fun x hx => ha x (List.mem_cons_of_mem _ hx))
    rw [List.cons_append, tokenEnd, if_neg (ha c (List.mem_cons_self _ _)), this,
      List.length_cons]

/-! ## The tokens of a line -/

theorem tokens_nil (delim : List Nat) : tokens delim [] = [] := by
  simp [tokens, List.splitOnP_nil]

theorem tokens_delims (delim a b : List Nat) (ha : ∀ x ∈ a, x ∈ delim) :
    tokens delim (a ++ b) = tokens delim b := by
  induction a with
  | nil => rfl
  | cons c a ih =>
    have hc := ha c (List.mem_cons_self _ _)
    have := ih (fun x hx => ha x (List.mem_cons_of_mem _ hx))
    unfold tokens at this ⊢
    rw [List.cons_append, List.splitOnP_cons]
    simp [hc, this]

theorem tokens_single (delim t : List Nat) (ht : ∀ x ∈ t, ¬ x ∈ delim) (hne : t ≠ []) :
    tokens delim t = [t] := by
  unfold tokens
  rw [List.splitOnP_eq_single]
  · simp [hne]
  · simpa using ht

theorem tokens_first (delim t b : List Nat) (d : Nat) (ht : ∀ x ∈ t, ¬ x ∈ delim)
    (hne : t ≠ []) (hd : d ∈ delim) :
    tokens delim (t ++ d :: b) = t :: tokens delim b := by
  unfold tokens
  rw [List.splitOnP_first]
  · simp [hne]
  · simpa using ht
  · simpa using hd

theorem drop_length_self (pre suf : List Nat) : (pre ++ suf).drop pre.length = suf := by
  simp

theorem getD_length_self (pre suf : List Nat) :
    (pre ++ suf).getD pre.length 0 = suf.headD 0 := by
  have := getD_length_add pre suf 0
  rw [Nat.add_zero] at this
  rw [this]
  cases suf <;> rfl

theorem set_length_self (pre suf : List Nat) (c v : Nat) :
    (pre ++ c :: suf).set pre.length v = pre ++ v :: suf := by
  simp

/-- One `strtok_r` call on a block that holds the NUL-free text `l` from the scanning
position on: it finds no token when `l` has none; otherwise it returns the first token
of `l` and either clears `*lasts` (no byte of `l` is left) or leaves the block holding
the rest `l'` of the text from `*lasts` on. -/
theorem strtok_r_step (delim pre l rest : List Nat) (s lasts : Option Nat)
    (hp : s.orElse (fun _ => lasts) = some pre.length)
    (hdelim : 0 ∉ delim) (hl : ∀ c ∈ l, c ≠ 0) :
    (tokens delim l = [] ∧ (strtok_r (pre ++ l ++ 0 :: rest) s delim lasts).token = none ∧
      (strtok_r (pre ++ l ++ 0 :: rest) s delim lasts).lasts = none) ∨
    (∃ q, (strtok_r (pre ++ l ++ 0 :: rest) s delim lasts).token = some q ∧
      tokens delim l = [cstr (strtok_r (pre ++ l ++ 0 :: rest) s delim lasts).mem q] ∧
      (strtok_r (pre ++ l ++ 0 :: rest) s delim lasts).lasts = none) ∨
    (∃ q pre2 l2, (strtok_r (pre ++ l ++ 0 :: rest) s delim lasts).token = some q ∧
      tokens delim l =
        cstr (strtok_r (pre ++ l ++ 0 :: rest) s delim lasts).mem q :: tokens delim l2 ∧
      (strtok_r (pre ++ l ++ 0 :: rest) s delim lasts).lasts = some pre2.length ∧
      (strtok_r (pre ++ l ++ 0 :: rest) s delim lasts).mem = pre2 ++ l2 ++ 0 :: rest ∧
      ∀ c ∈ l2, c ≠ 0) := by
  obtain ⟨ds, l1, hsplit, hds, hl1⟩ := exists_run (fun x => x ∈ delim) l
  subst hsplit
  have hskip : skipDelims delim (ds ++ (l1 ++ 0 :: rest)) = ds.length := by
    apply skipDelims_run _ _ _ hds
    intro x hx
    cases l1 with
    | nil => simp at hx; exact hx ▸ hdelim
    | cons c l1 => exact hl1 x (by simpa using hx)
  have hm1 : pre ++ (ds ++ l1) ++ 0 :: rest = pre ++ (ds ++ (l1 ++ 0 :: rest)) := by simp
  have htok : pre.length + ds.length = (pre ++ ds).length := by simp
  have hm2 : pre ++ (ds ++ l1) ++ 0 :: rest = (pre ++ ds) ++ (l1 ++ 0 :: rest) := by simp
  unfold strtok_r
  simp only [hp]
  rw [hm1, drop_length_self, hskip, htok, ← hm1, hm2, getD_length_self, drop_length_self]
  cases l1 with
  | nil =>
    left
    refine ⟨?_, by simp, by simp⟩
    rw [tokens_delims _ _ _ hds, tokens_nil]
  | cons c l1 =>
    right
    have hc0 : c ≠ 0 := hl c (by simp)
    have hcd : ¬ c ∈ delim := hl1 c rfl
    obtain ⟨t, l2, hsplit2, ht, hl2⟩ :=
      exists_run (fun x => ¬ (x = 0 ∨ x ∈ delim)) (c :: l1)
    have htne : t ≠ [] := by
      intro h
      subst h
      simp only [List.nil_append] at hsplit2
      rw [← hsplit2] at hl2
      exact hl2 c rfl (by simp [hc0, hcd])
    have htd : ∀ x ∈ t, ¬ x ∈ delim := fun x hx h => ht x hx (Or.inr h)
    have ht0 : ∀ x ∈ t, x ≠ 0 := fun x hx h => ht x hx (Or.inl h)
    rw [hsplit2]
    have hend : tokenEnd delim (t ++ l2 ++ 0 :: rest) = t.length := by
      rw [List.append_assoc]
      apply tokenEnd_run _ _ _ ht
      intro x hx
      cases l2 with
      | nil => simp at hx; exact Or.inl hx.symm
      | cons d l2 =>
        have := hl2 x (by simpa using hx)
        by_contra hcon
        exact this hcon
    have he : (pre ++ ds).length + t.length = (pre ++ ds ++ t).length := by
      simp only [List.length_append]
    have hm3 : pre ++ ds ++ (t ++ l2 ++ 0 :: rest) = (pre ++ ds ++ t) ++ (l2 ++ 0 :: rest) := by
      simp
    have hhead : (t ++ l2 ++ 0 :: rest).headD 0 ≠ 0 := by
      cases t with
      | nil => exact absurd rfl htne
      | cons a t => simpa using ht0 a (by simp)
    simp only [hhead, ↓reduceIte, hend, he]
    rw [hm3, getD_length_self]
    cases l2 with
    | nil =>
      left
      refine ⟨(pre ++ ds).length, ?_⟩
      simp only [List.nil_append, List.headD_cons, ↓reduceIte, true_and]
      refine ⟨?_, trivial⟩
      rw [cstr_append_zero _ _ _ ht0, tokens_delims _ _ _ hds, List.append_nil,
        tokens_single _ _ htd htne]
    | cons d l2 =>
      right
      have hd0 : d ≠ 0 := hl d (by rw [hsplit2]; simp)
      have hdd : d ∈ delim := by
        have := hl2 d rfl
        by_contra hcon
        exact this (by simp [hd0, hcon])
      refine ⟨(pre ++ ds).length, pre ++ ds ++ t ++ [0], l2, ?_⟩
      simp only [List.cons_append, List.headD_cons, hd0, ↓reduceIte, true_and]
      rw [set_length_self]
      have hm4 : pre ++ ds ++ t ++ 0 :: (l2 ++ 0 :: rest)
          = pre ++ ds ++ t ++ [0] ++ l2 ++ 0 :: rest := by simp
      refine ⟨?_, by simp only [List.length_append, List.length_singleton], hm4, ?_⟩
      · rw [cstr_append_zero _ _ _ ht0, tokens_delims _ _ _ hds,
          tokens_first _ _ _ _ htd htne hdd]
      · intro x hx
        exact hl x (by rw [hsplit2]; simp [hx])

/-! ## The tokenizer -/

theorem next_eq (s : StreamCmd) :
    s.next = ((strtok_r s.m_commandLine none (cstr s.m_delimiter 0) s.m_last).token,
      { s with
        m_commandLine := (strtok_r s.m_commandLine none (cstr s.m_delimiter 0) s.m_last).mem
        m_last := (strtok_r s.m_commandLine none (cstr s.m_delimiter 0) s.m_last).lasts
        m_current := (strtok_r s.m_commandLine none (cstr s.m_delimiter 0) s.m_last).token }) :=
  rfl

theorem next_delimiter (s : StreamCmd) : s.next.2.m_delimiter = s.m_delimiter := rfl

theorem next_of_last_none (s : StreamCmd) (h : s.m_last = none) :
    s.next.1 = none ∧ s.next.2.m_last = none := by
  simp [next_eq, strtok_r, h]

theorem nextN_of_last_none (n : Nat) (s : StreamCmd) (h : s.m_last = none) :
    nextN n s = List.replicate n none := by
  induction n generalizing s with
  | zero => rfl
  | succ n ih =>
    obtain ⟨h1, h2⟩ := next_of_last_none s h
    rw [nextN, h1, ih _ h2]
    rfl

theorem range_map_none (n : Nat) :
    (List.range n).map (fun i => ([] : List (List Nat))[i]?) = List.replicate n none := by
  induction n with
  | zero => rfl
  | succ n ih => simp [List.range_succ, List.replicate_succ', ih]

theorem range_map_cons (n : Nat) (t : List Nat) (ts : List (List Nat)) :
    (List.range (n + 1)).map (fun i => (t :: ts)[i]?)
      = some t :: (List.range n).map (fun i => ts[i]?) := by
  rw [List.range_succ_eq_map]
  simp [List.map_map, Function.comp_def]

/-- Successive `next()` calls on a block that holds the NUL-free text `l` from `m_last` on
return the tokens of `l` in order and then no token. -/
theorem nextN_tokens (n : Nat) : ∀ (s : StreamCmd) (pre l rest : List Nat),
    s.m_commandLine = pre ++ l ++ 0 :: rest → (∀ c ∈ l, c ≠ 0) →
    s.m_last = some pre.length →
    nextN n s = (List.range n).map (fun i => (tokens (cstr s.m_delimiter 0) l)[i]?) := by
  induction n with
  | zero => intro s pre l rest _ _ _; rfl
  | succ n ih =>
    intro s pre l rest hbuf hl hlast
    have hstep := strtok_r_step (cstr s.m_delimiter 0) pre l rest none s.m_last
      (by rw [hlast]; rfl) (cstr_zero_not_mem _ _) hl
    rw [← hbuf] at hstep
    rw [nextN]
    rcases hstep with ⟨ht, htok, hla⟩ | ⟨q, htok, ht, hla⟩ |
      ⟨q, pre2, l2, htok, ht, hla, hmem, hl2⟩
    · have h1 : s.next.1 = none := htok
      have h2 : s.next.2.m_last = none := hla
      rw [h1, nextN_of_last_none n _ h2, ht, range_map_none]
      rfl
    · have h1 : s.next.1 = some q := htok
      have h2 : s.next.2.m_last = none := hla
      rw [h1, nextN_of_last_none n _ h2, ht, range_map_cons, range_map_none]
      rfl
    · have h1 : s.next.1 = some q := htok
      have h2 : s.next.2.m_last = some pre2.length := hla
      have h3 : s.next.2.m_commandLine = pre2 ++ l2 ++ 0 :: rest := hmem
      rw [h1, ih s.next.2 pre2 l2 rest h3 hl2 h2, ht, range_map_cons, next_delimiter]
      rfl

theorem tokenizeLine_eq_next (s : StreamCmd) :
    tokenizeLine s = next { s with m_last := some 0 } := by
  simp only [tokenizeLine, next_eq, strtok_r, Option.orElse]

/-- C3. For a completed line (the buffer holds the NUL-free bytes `line` and their
terminator) the command token taken by the dispatch followed by the results of `n`
`next()` calls are the maximal non-empty delimiter-free substrings of the line in order,
one per call, and "no token" from the call on at which they are exhausted. -/
theorem tokenizer_results (s : StreamCmd) (line rest : List Nat) (n : Nat)
    (hbuf : s.m_commandLine = line ++ 0 :: rest) (hline : ∀ c ∈ line, c ≠ 0) :
    (tokenizeLine s).1.map (tokenizeLine s).2.tokenString :: nextN n (tokenizeLine s).2
      = (List.range (n + 1)).map (fun i => (tokens (cstr s.m_delimiter 0) line)[i]?) := by
  have h := nextN_tokens (n + 1) { s with m_last := some 0 } [] line rest
    (by simpa using hbuf) hline rfl
  rw [nextN, ← tokenizeLine_eq_next] at h
  exact h

/-! ## Line assembly -/

theorem run_append (cfg : Config) (h : Handlers) (xs ys : List Nat) (s : StreamCmd) :
    run cfg h (xs ++ ys) s
      = ((run cfg h ys (run cfg h xs s).1).1,
        (run cfg h xs s).2 ++ (run cfg h ys (run cfg h xs s).1).2) := by
  induction xs generalizing s with
  | nil => simp [run]
  | cons x xs ih => simp [run, ih, List.append_assoc]

theorem isprint_lt (b : Nat) (hb : isprint b = true) : b % 256 = b ∧ b ≠ 0 := by
  simp only [isprint, decide_eq_true_eq] at hb
  omega

theorem step_printable (cfg : Config) (h : Handlers) (b : Nat) (s : StreamCmd)
    (hb : isprint b = true) (hne : b ≠ s.m_eol) (hpos : s.m_pos < cfg.CommandBufferSize) :
    step cfg h b s = ({ s with
      m_commandLine := (s.m_commandLine.set s.m_pos b).set ((s.m_pos + 1) % 256) 0
      m_pos := (s.m_pos + 1) % 256 }, []) := by
  simp [step, (isprint_lt b hb).1, hne, hb, hpos]

theorem step_overflow (cfg : Config) (h : Handlers) (b : Nat) (s : StreamCmd)
    (hb : isprint b = true) (hne : b ≠ s.m_eol) (hpos : ¬ s.m_pos < cfg.CommandBufferSize) :
    step cfg h b s = ({ s with m_stream := s.m_stream ++ [overflowMessage] }, []) := by
  simp [step, (isprint_lt b hb).1, hne, hb, hpos]

/-- With a capacity of at most 255, printable bytes other than the end of line that fit
into the buffer are appended behind the `m_pos` bytes already there, terminator
included, and nothing else changes. -/
theorem run_printable (cfg : Config) (h : Handlers) (hcap : cfg.CommandBufferSize ≤ 255) :
    ∀ (bytes : List Nat) (s : StreamCmd) (pre rest : List Nat),
    s.m_commandLine = pre ++ 0 :: rest → pre.length = s.m_pos →
    pre.length + rest.length = cfg.CommandBufferSize → bytes.length ≤ rest.length →
    (∀ b ∈ bytes, isprint b = true ∧ b ≠ s.m_eol) →
    run cfg h bytes s = ({ s with
      m_commandLine := pre ++ bytes ++ 0 :: rest.drop bytes.length
      m_pos := s.m_pos + bytes.length }, []) := by
  intro bytes
  induction bytes with
  | nil =>
    intro s pre rest hbuf _ _ _ _
    simp [run, ← hbuf]
  | cons b bs ih =>
    intro s pre rest hbuf hpos hcapacity hlen hbytes
    obtain ⟨hb, hne⟩ := hbytes b (List.mem_cons_self _ _)
    cases rest with
    | nil => simp at hlen
    | cons r rest =>
      simp only [List.length_cons] at hlen hcapacity
      have hlt : s.m_pos < cfg.CommandBufferSize := by omega
      have hmod : (s.m_pos + 1) % 256 = s.m_pos + 1 := Nat.mod_eq_of_lt (by omega)
      have hset : (s.m_commandLine.set s.m_pos b).set (s.m_pos + 1) 0
          = (pre ++ [b]) ++ 0 :: rest := by
        rw [hbuf, ← hpos, set_length_self]
        have := set_length_add pre (b :: r :: rest) 1 0
        rw [this]
        simp
      rw [run, step_printable cfg h b s hb hne hlt, hmod, hset]
      simp only
      have key := ih { s with
          m_commandLine := pre ++ [b] ++ 0 :: rest
          m_pos := s.m_pos + 1 } (pre ++ [b]) rest rfl (by simp [hpos]) (by simp; omega)
        (by omega) (fun x hx => hbytes x (List.mem_cons_of_mem _ hx))
      rw [key]
      simp [Nat.add_assoc, Nat.add_comm 1]

/-- With a capacity of at most 255, a line of printable bytes that fits into the empty
buffer is assembled exactly, and the end of line dispatches that buffer. -/
theorem run_line (cfg : Config) (h : Handlers) (s : StreamCmd) (bytes rest : List Nat)
    (hcap : cfg.CommandBufferSize ≤ 255)
    (hbuf : s.m_commandLine = 0 :: rest) (hpos : s.m_pos = 0)
    (hlen : rest.length = cfg.CommandBufferSize) (hfit : bytes.length ≤ cfg.CommandBufferSize)
    (heol : s.m_eol < 256) (hbytes : ∀ b ∈ bytes, isprint b = true ∧ b ≠ s.m_eol) :
    cstr (run cfg h bytes s).1.m_commandLine 0 = bytes ∧
    run cfg h (bytes ++ [s.m_eol]) s
      = dispatch cfg h { s with
          m_commandLine := bytes ++ 0 :: rest.drop bytes.length
          m_pos := bytes.length } := by
  have hrun := run_printable cfg h hcap bytes s [] rest (by simpa using hbuf) (by simp [hpos])
    (by simpa using hlen) (by omega) hbytes
  have hnz : ∀ c ∈ bytes, c ≠ 0 := fun c hc => (isprint_lt c (hbytes c hc).1).2
  constructor
  · rw [hrun]
    have := cstr_append_zero [] bytes (rest.drop bytes.length) hnz
    simpa using this
  · rw [run_append, hrun]
    simp [run, step, Nat.mod_eq_of_lt heol, hpos]

/-- Printable bytes other than the end of line that arrive when the buffer is full are
dropped, each with one overflow message; the buffer is left as it is. -/
theorem run_full (cfg : Config) (h : Handlers) : ∀ (extra : List Nat) (s : StreamCmd),
    ¬ s.m_pos < cfg.CommandBufferSize →
    (∀ b ∈ extra, isprint b = true ∧ b ≠ s.m_eol) →
    run cfg h extra s = ({ s with
      m_stream := s.m_stream ++ List.replicate extra.length overflowMessage }, []) := by
  intro extra
  induction extra with
  | nil => intro s _ _; simp [run]
  | cons b bs ih =>
    intro s hfull hbytes
    obtain ⟨hb, hne⟩ := hbytes b (List.mem_cons_self _ _)
    have key := ih { s with m_stream := s.m_stream ++ [overflowMessage] } hfull
      (fun x hx => hbytes x (List.mem_cons_of_mem _ hx))
    rw [run, step_overflow cfg h b s hb hne hfull]
    simp only
    rw [key]
    simp [List.replicate_succ]

/-- With a capacity of at most 255, a line of more printable bytes than fit into the
empty buffer is cut to the first `CommandBufferSize` bytes, every further byte prints
one overflow message, and the end of line dispatches the cut line. -/
theorem run_line_overflow (cfg : Config) (h : Handlers) (s : StreamCmd)
    (first extra rest : List Nat) (hcap : cfg.CommandBufferSize ≤ 255)
    (hbuf : s.m_commandLine = 0 :: rest) (hpos : s.m_pos = 0)
    (hlen : rest.length = cfg.CommandBufferSize) (hfirst : first.length = cfg.CommandBufferSize)
    (heol : s.m_eol < 256)
    (hbytes : ∀ b ∈ first ++ extra, isprint b = true ∧ b ≠ s.m_eol) :
    run cfg h (first ++ extra ++ [s.m_eol]) s
      = dispatch cfg h { s with
          m_stream := s.m_stream ++ List.replicate extra.length overflowMessage
          m_commandLine := first ++ [0]
          m_pos := cfg.CommandBufferSize } := by
  have h1 := run_printable cfg h hcap first s [] rest (by simpa using hbuf) (by simp [hpos])
    (by simpa using hlen) (by omega) (fun b hb => hbytes b (List.mem_append_left _ hb))
  have hdrop : rest.drop first.length = [] := List.drop_eq_nil_of_le (by omega)
  rw [hdrop, hpos, hfirst] at h1
  simp only [List.nil_append, Nat.zero_add] at h1
  have h2 := run_full cfg h extra { s with
      m_commandLine := first ++ [0]
      m_pos := cfg.CommandBufferSize } (by simp)
    (fun b hb => hbytes b (List.mem_append_right _ hb))
  rw [List.append_assoc, run_append, h1, run_append, h2]
  simp [run, step, Nat.mod_eq_of_lt heol]

/-! ## String comparison and copying -/

theorem cstr_zero_eq (a : List Nat) :
    cstr a 0 = if a.headD 0 = 0 then [] else a.headD 0 :: cstr a.tail 0 := by
  cases a with
  | nil => rfl
  | cons c a =>
    by_cases hc : c = 0
    · simp [cstr, hc]
    · simp [cstr, hc, List.takeWhile_cons]

theorem cstr_drop (mem : List Nat) (p : Nat) : cstr (mem.drop p) 0 = cstr mem p := rfl

theorem cstr_cstr (mem : List Nat) (p : Nat) : cstr (cstr mem p) 0 = cstr mem p := by
  unfold cstr
  rw [List.drop_zero]
  induction mem.drop p with
  | nil => rfl
  | cons c l ih =>
    by_cases hc : c = 0
    · simp [hc]
    · have hd : (fun c : Nat => decide (c ≠ 0)) c = true := by simp [hc]
      rw [@List.takeWhile_cons_of_pos Nat (fun c => decide (c ≠ 0)) c l hd,
        @List.takeWhile_cons_of_pos Nat (fun c => decide (c ≠ 0)) c _ hd, ih]

theorem strncmp_eq_zero_iff (n : Nat) : ∀ a b : List Nat,
    strncmp a b n = 0 ↔ (cstr a 0).take n = (cstr b 0).take n := by
  induction n with
  | zero => intro a b; simp [strncmp]
  | succ n ih =>
    intro a b
    rw [strncmp, cstr_zero_eq a, cstr_zero_eq b]
    have hih := ih a.tail b.tail
    generalize a.headD 0 = x at *
    generalize b.headD 0 = y at *
    by_cases h12 : x = y
    · subst h12
      by_cases h0 : x = 0
      · simp [h0]
      · simp only [ne_eq, not_true_eq_false, ↓reduceIte, h0, List.take_succ_cons,
          List.cons.injEq, true_and]
        exact hih
    · have hsub : (x : Int) - (y : Int) ≠ 0 := by omega
      simp only [ne_eq, h12, not_false_eq_true, ↓reduceIte, hsub, false_iff]
      by_cases h0 : x = 0
      · have h0b : ¬ y = 0 := fun hb => h12 (h0.trans hb.symm)
        simp [h0, h0b]
      · by_cases h0b : y = 0
        · simp [h0, h0b]
        · simp [h0, h0b, h12]

theorem strcmp_eq_zero_iff (a : List Nat) : ∀ b : List Nat,
    strcmp a b = 0 ↔ cstr a 0 = cstr b 0 := by
  induction a with
  | nil =>
    intro b
    rw [strcmp, cstr_zero_eq b]
    have hnil : cstr [] 0 = [] := rfl
    rw [hnil]
    generalize b.headD 0 = y at *
    by_cases h0b : y = 0
    · simp [h0b]
    · have : ¬ (y : Int) = 0 := by omega
      simp [h0b, this]
  | cons c a ih =>
    intro b
    rw [strcmp, cstr_zero_eq (c :: a), cstr_zero_eq b]
    simp only [List.headD_cons, List.tail_cons]
    have hih := ih b.tail
    generalize b.headD 0 = y at *
    by_cases h12 : c = y
    · subst h12
      by_cases h0 : c = 0
      · simp [h0]
      · simp only [ne_eq, not_true_eq_false, ↓reduceIte, h0, List.cons.injEq, true_and]
        exact hih
    · have hsub : (c : Int) - (y : Int) ≠ 0 := by omega
      simp only [ne_eq, h12, not_false_eq_true, ↓reduceIte, hsub, false_iff]
      by_cases h0 : c = 0
      · have h0b : ¬ y = 0 := fun hb => h12 (h0.trans hb.symm)
        simp [h0, h0b]
      · by_cases h0b : y = 0
        · simp [h0, h0b]
        · simp [h0, h0b, h12]

theorem strncpy_nil_cstr (n : Nat) : ∀ dest : List Nat, n ≤ dest.length →
    (cstr (strncpy dest [] n) 0).take n = [] := by
  induction n with
  | zero => intro dest _; simp
  | succ n ih =>
    intro dest hlen
    cases dest with
    | nil => simp at hlen
    | cons d dest => simp [strncpy, cstr]

theorem strncpy_cstr (n : Nat) : ∀ dest src : List Nat, n ≤ dest.length →
    (cstr (strncpy dest src n) 0).take n = (cstr src 0).take n := by
  induction n with
  | zero => intro dest src _; simp
  | succ n ih =>
    intro dest src hlen
    cases dest with
    | nil => simp at hlen
    | cons d dest =>
      cases src with
      | nil => simp [strncpy, cstr]
      | cons c src =>
        have hlen2 : n ≤ dest.length := by simpa using hlen
        by_cases hc : c = 0
        · simp [strncpy, cstr, hc]
        · rw [strncpy, if_neg hc, cstr_zero_eq (c :: strncpy dest src n), cstr_zero_eq (c :: src)]
          simp only [List.headD_cons, hc, ↓reduceIte, List.tail_cons, List.take_succ_cons,
            List.cons.injEq, true_and]
          exact ih dest src hlen2

/-! ## The search loops -/

theorem firstIndex_some (test : Nat → Bool) (n : Nat) : ∀ i k : Nat,
    firstIndex test n i = some k →
    i ≤ k ∧ k < i + n ∧ test k = true ∧ ∀ j, i ≤ j → j < k → test j = false := by
  induction n with
  | zero => intro i k h; simp [firstIndex] at h
  | succ n ih =>
    intro i k h
    rw [firstIndex] at h
    by_cases ht : test i = true
    · simp only [ht, ↓reduceIte, Option.some.injEq] at h
      subst h
      exact ⟨le_refl _, by omega, ht, fun j h1 h2 => by omega⟩
    · simp only [ht, Bool.false_eq_true, ↓reduceIte] at h
      obtain ⟨h1, h2, h3, h4⟩ := ih (i + 1) k h
      refine ⟨by omega, by omega, h3, fun j hj1 hj2 => ?_⟩
      by_cases hji : j = i
      · subst hji; simpa using ht
      · exact h4 j (by omega) hj2

theorem firstIndex_none (test : Nat → Bool) (n : Nat) : ∀ i : Nat,
    firstIndex test n i = none → ∀ j, i ≤ j → j < i + n → test j = false := by
  induction n with
  | zero => intro i _ j h1 h2; omega
  | succ n ih =>
    intro i h j h1 h2
    rw [firstIndex] at h
    by_cases ht : test i = true
    · simp [ht] at h
    · simp only [ht, Bool.false_eq_true, ↓reduceIte] at h
      by_cases hji : j = i
      · subst hji; simpa using ht
      · exact ih (i + 1) h j (by omega) (by omega)

theorem firstIndex_eq_some (test : Nat → Bool) (n k : Nat) (hk : k < n)
    (ht : test k = true) (hfirst : ∀ j, j < k → test j = false) :
    firstIndex test n 0 = some k := by
  cases hf : firstIndex test n 0 with
  | none =>
    have := firstIndex_none test n 0 hf k (Nat.zero_le _) (by omega)
    rw [ht] at this
    exact absurd this (by simp)
  | some k2 =>
    obtain ⟨_, _, h3, h4⟩ := firstIndex_some test n 0 k2 hf
    rcases Nat.lt_trichotomy k2 k with h | h | h
    · have := hfirst k2 h
      rw [h3] at this
      exact absurd this (by simp)
    · rw [h]
    · have := h4 k (Nat.zero_le _) h
      rw [ht] at this
      exact absurd this (by simp)

theorem firstIndex_eq_none (test : Nat → Bool) (n : Nat)
    (hall : ∀ j, j < n → test j = false) : firstIndex test n 0 = none := by
  cases hf : firstIndex test n 0 with
  | none => rfl
  | some k =>
    obtain ⟨_, h2, h3, _⟩ := firstIndex_some test n 0 k hf
    have := hall k (by omega)
    rw [h3] at this
    exact absurd this (by simp)

/-! ## Dispatch -/

theorem tokenizeLine_set (s : StreamCmd) : (tokenizeLine s).2.set = s.set := rfl

theorem tokenizeLine_stream (s : StreamCmd) : (tokenizeLine s).2.m_stream = s.m_stream := rfl

theorem tokenizeLine_prompt (s : StreamCmd) : (tokenizeLine s).2.m_prompt = s.m_prompt := rfl

/-- The command token of a completed line is the first token of the line, and there is
none exactly when the line has no token. -/
theorem tokenizeLine_first (s : StreamCmd) (line rest : List Nat)
    (hbuf : s.m_commandLine = line ++ 0 :: rest) (hline : ∀ c ∈ line, c ≠ 0) :
    (tokenizeLine s).1.map (tokenizeLine s).2.tokenString
      = (tokens (cstr s.m_delimiter 0) line).head? := by
  have h := nextN_tokens 1 { s with m_last := some 0 } [] line rest
    (by simpa using hbuf) hline rfl
  rw [nextN, ← tokenizeLine_eq_next] at h
  have h2 := congrArg List.head? h
  simp only [List.head?_cons] at h2
  injection h2 with h2
  rw [h2]
  cases tokens (cstr s.m_delimiter 0) line <;> simp

theorem strncmp_token (mem e : List Nat) (q n : Nat) :
    strncmp (mem.drop q) e n = 0 ↔ strncmp (cstr mem q) e n = 0 := by
  rw [strncmp_eq_zero_iff, strncmp_eq_zero_iff, cstr_drop, cstr_cstr]

theorem finishLine_reset (s : StreamCmd) :
    (finishLine s).m_pos = 0 ∧ cstr (finishLine s).m_commandLine 0 = [] := by
  unfold finishLine
  cases s.m_prompt with
  | none =>
    refine ⟨rfl, ?_⟩
    simp only [clearBuffer]
    cases s.m_commandLine <;> simp [cstr]
  | some p =>
    refine ⟨rfl, ?_⟩
    simp only [clearBuffer]
    cases s.m_commandLine <;> simp [cstr]

theorem finishLine_stream (s : StreamCmd) :
    (finishLine s).m_stream = s.m_stream ++
      (match s.m_prompt with
        | some p => [Printed.print p, Printed.print "> "]
        | none => []) := by
  unfold finishLine
  cases s.m_prompt <;> simp [clearBuffer]

theorem dispatch_reset (cfg : Config) (h : Handlers) (s : StreamCmd) :
    (dispatch cfg h s).1.m_pos = 0 ∧ cstr (dispatch cfg h s).1.m_commandLine 0 = [] := by
  unfold dispatch
  simp only
  split
  · exact finishLine_reset _
  · split
    · exact finishLine_reset _
    · exact finishLine_reset _

/-- The dispatch of a line whose first token matches entry `i` of the active table and
no entry before it: the callback of entry `i` runs on the tokenized object, then the line
is finished; it is the only call. -/
theorem dispatch_match (cfg : Config) (h : Handlers) (s : StreamCmd)
    (line rest tok : List Nat) (i : Nat)
    (hbuf : s.m_commandLine = line ++ 0 :: rest) (hline : ∀ c ∈ line, c ≠ 0)
    (htok : (tokens (cstr s.m_delimiter 0) line).head? = some tok)
    (hi : i < s.set.m_commandCount)
    (hmatch : strncmp tok (s.set.m_commandList.getD i default).command cfg.MaxCommandSize = 0)
    (hfirst : ∀ j, j < i →
      strncmp tok (s.set.m_commandList.getD j default).command cfg.MaxCommandSize ≠ 0) :
    dispatch cfg h s
      = (finishLine (h.command (s.set.m_commandList.getD i default).commandCallback
          (tokenizeLine s).2),
         [Call.command (s.set.m_commandList.getD i default).commandCallback]) := by
  have hf := tokenizeLine_first s line rest hbuf hline
  rw [htok] at hf
  cases hq : (tokenizeLine s).1 with
  | none => rw [hq] at hf; simp at hf
  | some q =>
    rw [hq] at hf
    simp only [Option.map_some', Option.some.injEq, tokenString] at hf
    have hfound : findCommand cfg s.set ((tokenizeLine s).2.m_commandLine.drop q) = some i := by
      unfold findCommand
      apply firstIndex_eq_some _ _ _ hi
      · simp only [decide_eq_true_eq]
        rw [strncmp_token, hf]
        exact hmatch
      · intro j hj
        simp only [decide_eq_false_iff_not]
        rw [strncmp_token, hf]
        exact hfirst j hj
    unfold dispatch
    simp only [hq, tokenizeLine_set, hfound]

/-- The dispatch of a line whose first token matches no entry of the active table, or
that has no token: with a default callback that one runs on the tokenized object with
the first token, or the empty string, and is the only call; without one nothing runs.
Then the line is finished. -/
theorem dispatch_miss (cfg : Config) (h : Handlers) (s : StreamCmd)
    (line rest : List Nat)
    (hbuf : s.m_commandLine = line ++ 0 :: rest) (hline : ∀ c ∈ line, c ≠ 0)
    (hno : ∀ tok, (tokens (cstr s.m_delimiter 0) line).head? = some tok →
      ∀ j, j < s.set.m_commandCount →
        strncmp tok (s.set.m_commandList.getD j default).command cfg.MaxCommandSize ≠ 0) :
    (s.set.m_defaultCallback ≠ 0 →
      dispatch cfg h s
        = (finishLine (h.default s.set.m_defaultCallback
            ((tokens (cstr s.m_delimiter 0) line).head?.getD []) (tokenizeLine s).2),
           [Call.default s.set.m_defaultCallback
            ((tokens (cstr s.m_delimiter 0) line).head?.getD [])])) ∧
    (s.set.m_defaultCallback = 0 →
      dispatch cfg h s = (finishLine (tokenizeLine s).2, [])) := by
  refine ⟨?_, ?_⟩
  all_goals
    have hf := tokenizeLine_first s line rest hbuf hline
    intro hd
    cases hq : (tokenizeLine s).1 with
    | none =>
      rw [hq] at hf
      simp only [Option.map_none'] at hf
      unfold dispatch
      simp [hq, tokenizeLine_set, hd, ← hf]
    | some q =>
      rw [hq] at hf
      simp only [Option.map_some', tokenString] at hf
      have hfound : findCommand cfg s.set ((tokenizeLine s).2.m_commandLine.drop q) = none := by
        unfold findCommand
        apply firstIndex_eq_none
        intro j hj
        simp only [decide_eq_false_iff_not]
        rw [strncmp_token]
        exact hno _ hf.symm j hj
      unfold dispatch
      simp [hq, tokenizeLine_set, hd, ← hf, hfound]

/-- C4. When the first token of a completed line matches the entry at index `i` of the
active table (`i` below the count) and no entry before it, the dispatch runs the
callback of entry `i` on the tokenized object and then finishes the line: the object it
leaves is the one that callback returned, with the prompt printed and the buffer
cleared. That call is the only one: no other entry's callback and not the default
callback. -/
theorem dispatch_first_match (cfg : Config) (h : Handlers) (s : StreamCmd)
    (line rest tok : List Nat) (i : Nat)
    (hbuf : s.m_commandLine = line ++ 0 :: rest) (hline : ∀ c ∈ line, c ≠ 0)
    (htok : (tokens (cstr s.m_delimiter 0) line).head? = some tok)
    (hi : i < s.set.m_commandCount)
    (hmatch : strncmp tok (s.set.m_commandList.getD i default).command cfg.MaxCommandSize = 0)
    (hfirst : ∀ j, j < i →
      strncmp tok (s.set.m_commandList.getD j default).command cfg.MaxCommandSize ≠ 0) :
    (dispatch cfg h s).2
      = [Call.command (s.set.m_commandList.getD i default).commandCallback] ∧
    (dispatch cfg h s).1
      = finishLine (h.command (s.set.m_commandList.getD i default).commandCallback
          (tokenizeLine s).2) := by
  rw [dispatch_match cfg h s line rest tok i hbuf hline htok hi hmatch hfirst]
  exact ⟨rfl, rfl⟩

/-- C6. When the first token of a completed line matches no entry of the active table,
or the line has no token: with a default callback the dispatch runs it on the tokenized
object with the first token, or with the empty string when there is none, and then
finishes the line; that call is the only one. Without a default callback it runs
nothing: the object it leaves is the tokenized object with the line finished, and
nothing but the prompt is printed. The buffer is empty afterwards. -/
theorem dispatch_no_match (cfg : Config) (h : Handlers) (s : StreamCmd)
    (line rest : List Nat)
    (hbuf : s.m_commandLine = line ++ 0 :: rest) (hline : ∀ c ∈ line, c ≠ 0)
    (hno : ∀ tok, (tokens (cstr s.m_delimiter 0) line).head? = some tok →
      ∀ j, j < s.set.m_commandCount →
        strncmp tok (s.set.m_commandList.getD j default).command cfg.MaxCommandSize ≠ 0) :
    (s.set.m_defaultCallback ≠ 0 →
      (dispatch cfg h s).2 = [Call.default s.set.m_defaultCallback
        ((tokens (cstr s.m_delimiter 0) line).head?.getD [])] ∧
      (dispatch cfg h s).1 = finishLine (h.default s.set.m_defaultCallback
        ((tokens (cstr s.m_delimiter 0) line).head?.getD []) (tokenizeLine s).2)) ∧
    (s.set.m_defaultCallback = 0 →
      (dispatch cfg h s).2 = [] ∧
      (dispatch cfg h s).1 = finishLine (tokenizeLine s).2 ∧
      (dispatch cfg h s).1.m_stream = s.m_stream ++
        (match s.m_prompt with
          | some p => [Printed.print p, Printed.print "> "]
          | none => [])) ∧
    (dispatch cfg h s).1.m_pos = 0 ∧ cstr (dispatch cfg h s).1.m_commandLine 0 = [] := by
  obtain ⟨h1, h2⟩ := dispatch_miss cfg h s line rest hbuf hline hno
  refine ⟨fun hd => ?_, fun hd => ?_, dispatch_reset cfg h s⟩
  · rw [h1 hd]
    exact ⟨rfl, rfl⟩
  · rw [h2 hd]
    refine ⟨rfl, rfl, ?_⟩
    rw [finishLine_stream, tokenizeLine_stream, tokenizeLine_prompt]


/-! ## Registration -/

theorem getD_modify_self {α : Type} (f : α → α) (l : List α) (n : Nat) (d : α)
    (h : n < l.length) : (l.modify f n).getD n d = f (l.getD n d) := by
  simp [List.getD_eq_getElem?_getD, List.getElem?_modify_eq, List.getElem?_eq_getElem h]

theorem addCommand_entry (cfg : Config) (s : StreamCmd) (command : List Nat) (cb : Nat)
    (hset : s.m_currentCommandSet < s.m_commandSets.length)
    (hcount : s.set.m_commandCount < s.set.m_commandList.length) :
    (s.addCommand cfg command cb).set.m_commandList.getD s.set.m_commandCount default
      = ⟨strncpy (s.set.m_commandList.getD s.set.m_commandCount default).command command
          cfg.MaxCommandSize, cb⟩ := by
  have key : ∀ s1 : StreamCmd, s1.m_commandSets = s.m_commandSets →
      s1.m_currentCommandSet = s.m_currentCommandSet →
      ((s1.modifySet fun cs =>
        { cs with
          m_commandList := cs.m_commandList.modify
            (fun e => ⟨strncpy e.command command cfg.MaxCommandSize, cb⟩) s.set.m_commandCount
          m_commandCount := (s.set.m_commandCount + 1) % 256 }).set.m_commandList.getD
            s.set.m_commandCount default)
        = ⟨strncpy (s.set.m_commandList.getD s.set.m_commandCount default).command command
            cfg.MaxCommandSize, cb⟩ := by
    intro s1 h1 h2
    simp only [modifySet, set, h1, h2]
    rw [getD_modify_self _ _ _ _ hset]
    simp only
    exact getD_modify_self _ _ _ _ hcount
  unfold addCommand
  simp only
  split
  · exact key _ rfl rfl
  · exact key _ rfl rfl

/-- C5. The entry `addCommand` stores for a name matches a token in the lookup of `run`
exactly when the first `MaxCommandSize` characters of the token equal the first
`MaxCommandSize` characters of the name; for a token and a name of at most
`MaxCommandSize` characters that is equality of the two strings. The token and the name
are the strings at the pointers `a` and `command`. -/
theorem registered_name_match (cfg : Config) (s : StreamCmd) (command a : List Nat)
    (cb : Nat) (hset : s.m_currentCommandSet < s.m_commandSets.length)
    (hcount : s.set.m_commandCount < s.set.m_commandList.length)
    (hroom : cfg.MaxCommandSize
      ≤ (s.set.m_commandList.getD s.set.m_commandCount default).command.length) :
    ((s.addCommand cfg command cb).set.m_commandList.getD s.set.m_commandCount
        default).commandCallback = cb ∧
    (strncmp a ((s.addCommand cfg command cb).set.m_commandList.getD s.set.m_commandCount
        default).command cfg.MaxCommandSize = 0
      ↔ (cstr a 0).take cfg.MaxCommandSize = (cstr command 0).take cfg.MaxCommandSize) ∧
    ((cstr a 0).length ≤ cfg.MaxCommandSize → (cstr command 0).length ≤ cfg.MaxCommandSize →
      (strncmp a ((s.addCommand cfg command cb).set.m_commandList.getD s.set.m_commandCount
        default).command cfg.MaxCommandSize = 0 ↔ cstr a 0 = cstr command 0)) := by
  rw [addCommand_entry cfg s command cb hset hcount]
  have hiff : strncmp a (strncpy (s.set.m_commandList.getD s.set.m_commandCount
      default).command command cfg.MaxCommandSize) cfg.MaxCommandSize = 0
      ↔ (cstr a 0).take cfg.MaxCommandSize = (cstr command 0).take cfg.MaxCommandSize := by
    rw [strncmp_eq_zero_iff, strncpy_cstr _ _ _ hroom]
  refine ⟨rfl, hiff, fun h1 h2 => ?_⟩
  rw [hiff, List.take_of_length_le h1, List.take_of_length_le h2]


/-! ## Evaluations -/

set_option maxRecDepth 1000000 in
/-- C1 (defect). With `CommandBufferSize = 256`, 256 printable bytes and the end of line
dispatch the empty line: the `uint8_t` write position wraps to 0 at the 256th byte, the
terminator goes to index 0, and the default callback is called with `""`. -/
theorem line_lost_at_256 :
    cstr (run wideConfig idle (List.replicate 256 97) wide).1.m_commandLine 0 = [] ∧
    (run wideConfig idle (List.replicate 256 97 ++ [10]) wide).2 = [Call.default 9 []] := by
  decide

set_option maxRecDepth 1000000 in
/-- C2 (defect). With `CommandBufferSize = 256`, 256 bytes `a`, one byte `b` and the end
of line dispatch the line `b`, not the first 256 bytes, and print no overflow message. -/
theorem overflow_missed_at_256 :
    (run wideConfig idle (List.replicate 256 97 ++ [98, 10]) wide).2 = [Call.default 9 [98]] ∧
    (run wideConfig idle (List.replicate 256 97 ++ [98, 10]) wide).1.m_stream = [] := by
  decide

/-- C3, witness: the line `cmd a b`. -/
theorem tokenizer_results_witness :
    (tokenizeLine (run defaultConfig idle (ascii "cmd a b") fresh).1).1.map
        (tokenizeLine (run defaultConfig idle (ascii "cmd a b") fresh).1).2.tokenString
      :: nextN 3 (tokenizeLine (run defaultConfig idle (ascii "cmd a b") fresh).1).2
      = [some (ascii "cmd"), some (ascii "a"), some (ascii "b"), none] :=
  (tokenizer_results (run defaultConfig idle (ascii "cmd a b") fresh).1 (ascii "cmd a b")
    (List.replicate 25 0) 3 (by decide) (by decide)).trans (by decide)

/-- C4, witness: with `set` and `get` registered in that order, `get 5` and the end of
line run the callback of `get` once and nothing else: callbacks that print their
identity leave the mark of callback 2 alone on the stream. -/
theorem dispatch_first_match_witness :
    run defaultConfig echo (ascii "get 5\n") demo
      = (finishLine (echo.command 2
          (tokenizeLine (run defaultConfig echo (ascii "get 5") demo).1).2),
         [Call.command 2]) ∧
    (run defaultConfig echo (ascii "get 5\n") demo).1.m_stream = [Printed.printChars [2]] ∧
    (dispatch defaultConfig echo (run defaultConfig echo (ascii "get 5") demo).1).2
      = [Call.command 2] ∧
    (dispatch defaultConfig echo (run defaultConfig echo (ascii "get 5") demo).1).1
      = finishLine (echo.command 2
          (tokenizeLine (run defaultConfig echo (ascii "get 5") demo).1).2) :=
  ⟨by decide, by decide,
   dispatch_first_match defaultConfig echo (run defaultConfig echo (ascii "get 5") demo).1
    (ascii "get 5") (List.replicate 27 0) (ascii "get") 1 (by decide) (by decide) (by decide)
    (by decide) (by decide) (by decide)⟩

/-- C5, witness: with names of three characters, the token `getx` matches the entry
registered for `get`, and `getx` and the end of line call its callback. -/
theorem registered_name_match_witness :
    (run shortConfig idle (ascii "getx\n") (short.addCommand shortConfig (ascii "get") 2)).2
      = [Call.command 2] ∧
    strncmp (ascii "getx") ((short.addCommand shortConfig (ascii "get") 2).set.m_commandList.getD
      short.set.m_commandCount default).command shortConfig.MaxCommandSize = 0 :=
  ⟨by decide,
   (registered_name_match shortConfig short (ascii "get") (ascii "getx") 2 (by decide)
    (by decide) (by decide)).2.1.2 (by decide)⟩

/-- C6, witness: `zap 1` matches neither `set` nor `get`, so the default callback runs
with `zap`, and with the empty string on an empty line: callbacks that print their
identity and argument leave the mark of callback 9 with that argument alone on the
stream. Without a default callback nothing runs and nothing is printed. -/
theorem dispatch_no_match_witness :
    ((dispatch defaultConfig echo (run defaultConfig echo (ascii "zap 1") demoDefault).1).2
      = [Call.default 9 (ascii "zap")] ∧
     (dispatch defaultConfig echo (run defaultConfig echo (ascii "zap 1") demoDefault).1).1
      = finishLine (echo.default 9 (ascii "zap")
          (tokenizeLine (run defaultConfig echo (ascii "zap 1") demoDefault).1).2)) ∧
    (run defaultConfig echo (ascii "zap 1\n") demoDefault).2
      = [Call.default 9 (ascii "zap")] ∧
    (run defaultConfig echo (ascii "zap 1\n") demoDefault).1.m_stream
      = [Printed.printChars (9 :: ascii "zap")] ∧
    (run defaultConfig echo (ascii "\n") demoDefault).2 = [Call.default 9 []] ∧
    (run defaultConfig echo (ascii "\n") demoDefault).1.m_stream
      = [Printed.printChars [9]] ∧
    (run defaultConfig echo (ascii "zap 1\n") demo).2 = [] ∧
    (run defaultConfig echo (ascii "zap 1\n") demo).1.m_stream = [] :=
  ⟨(dispatch_no_match defaultConfig echo (run defaultConfig echo (ascii "zap 1") demoDefault).1
      (ascii "zap 1") (List.replicate 27 0) (by decide) (by decide) (by decide)).1 (by decide),
   by decide, by decide, by decide, by decide, by decide, by decide⟩

/-! ## Number parsing -/

theorem drop_eq_cstr_append (mem : List Nat) (p : Nat) :
    ∃ r, mem.drop p = cstr mem p ++ r ∧ ∀ c, r.head? = some c → c = 0 := by
  unfold cstr
  induction mem.drop p with
  | nil => exact ⟨[], rfl, by simp⟩
  | cons c l ih =>
    by_cases hc : c = 0
    · exact ⟨c :: l, by simp [hc], by intro x hx; simp at hx; omega⟩
    · obtain ⟨r, hr, hr0⟩ := ih
      refine ⟨r, ?_, hr0⟩
      have hd : (fun c : Nat => decide (c ≠ 0)) c = true := by simp [hc]
      rw [@List.takeWhile_cons_of_pos Nat (fun c => decide (c ≠ 0)) c l hd, List.cons_append,
        ← hr]

theorem scanDigits_stop (base : Nat) (x : List Nat) (acc : Nat)
    (hx : ∀ c, x.head? = some c → ∀ d, digitValue c = some d → ¬ d < base) :
    scanDigits base x acc = (acc, 0) := by
  cases x with
  | nil => rfl
  | cons c x =>
    rw [scanDigits]
    cases hd : digitValue c with
    | none => rfl
    | some d => simp [hx c rfl d hd]

theorem digitValue_digit (d : Nat) (hd : d < 10) : digitValue (d + 48) = some d := by
  unfold digitValue
  rw [if_pos (by omega)]
  simp

theorem digitValue_not_decimal (c : Nat) (hc : isDecimalDigit c = false) :
    ∀ d, digitValue c = some d → ¬ d < 10 := by
  intro d hd
  simp only [isDecimalDigit, decide_eq_false_iff_not] at hc
  unfold digitValue at hd
  split at hd
  · omega
  · split at hd
    · injection hd with hd; omega
    · split at hd
      · injection hd with hd; omega
      · simp at hd

theorem scanDigits_digits (ds x : List Nat) (hds : ∀ d ∈ ds, d < 10)
    (hx : ∀ c, x.head? = some c → isDecimalDigit c = false) : ∀ acc : Nat,
    scanDigits 10 (ds.map (fun d => d + 48) ++ x) acc
      = (acc * 10 ^ ds.length + Nat.ofDigits 10 ds.reverse, ds.length) := by
  induction ds with
  | nil =>
    intro acc
    rw [List.map_nil, List.nil_append,
      scanDigits_stop 10 x acc (fun c hc => digitValue_not_decimal c (hx c hc))]
    simp
  | cons d ds ih =>
    intro acc
    have hd : d < 10 := hds d (List.mem_cons_self _ _)
    have hih := ih (fun e he => hds e (List.mem_cons_of_mem _ he)) (acc * 10 + d)
    rw [List.map_cons, List.cons_append, scanDigits, digitValue_digit d hd]
    simp only [hd, ↓reduceIte, hih, List.length_cons, List.reverse_cons, Nat.ofDigits_append,
      List.length_reverse, Nat.ofDigits_singleton, Prod.mk.injEq, and_true]
    ring

theorem isspace_false_of_digit (d : Nat) (hd : d < 10) : isspace (d + 48) = false := by
  simp only [isspace, decide_eq_false_iff_not]
  omega

/-- What the `strtol` family reads from a decimal numeral followed by something that is
not a decimal digit: sign and value of the numeral, and its length as the bytes read. -/
theorem parseSubject_numeral (negative : Bool) (ds x : List Nat) (hne : ds ≠ [])
    (hds : ∀ d ∈ ds, d < 10) (hx : ∀ c, x.head? = some c → isDecimalDigit c = false) :
    parseSubject (numeralString negative ds ++ x) 10
      = ⟨negative, Nat.ofDigits 10 ds.reverse, (numeralString negative ds).length⟩ := by
  obtain ⟨d, ds2, rfl⟩ := List.exists_cons_of_ne_nil hne
  have hd : d < 10 := hds d (List.mem_cons_self _ _)
  have hscan := scanDigits_digits (d :: ds2) x hds hx 0
  have hsp := isspace_false_of_digit d hd
  cases negative with
  | false =>
    have h43 : ¬ (d + 48 = 45 ∨ d + 48 = 43) := by omega
    have h45 : ¬ d + 48 = 45 := by omega
    simp only [numeralString] at hscan ⊢
    simp only [Bool.false_eq_true, ↓reduceIte, List.nil_append, List.map_cons, List.cons_append]
      at hscan ⊢
    simp [parseSubject, List.takeWhile_cons, hsp, h43, h45, hscan]
  | true =>
    simp only [numeralString] at hscan ⊢
    simp only [↓reduceIte, List.singleton_append, List.map_cons, List.cons_append] at hscan ⊢
    have h45 : isspace 45 = false := by decide
    simp [parseSubject, List.takeWhile_cons, h45, hscan]
    omega


theorem parseSubject_noNumber (tok r : List Nat) (h : noNumber tok = true)
    (hr : ∀ c, r.head? = some c → c = 0) : parseSubject (tok ++ r) 10 = ⟨false, 0, 0⟩ := by
  have hstop0 : ∀ acc, scanDigits 10 r acc = (acc, 0) := fun acc =>
    scanDigits_stop 10 r acc (fun c hc d hd => by
      have := hr c hc
      subst this
      simp [digitValue] at hd)
  cases tok with
  | nil =>
    cases r with
    | nil => simp [parseSubject, scanDigits]
    | cons c r =>
      have hc : c = 0 := hr c rfl
      subst hc
      have := hstop0 0
      simp [parseSubject, List.takeWhile_cons, isspace, this]
  | cons c cs =>
    simp only [noNumber, Bool.and_eq_true, Bool.not_eq_true'] at h
    obtain ⟨hsp, h2⟩ := h
    by_cases hsign : c = 43 ∨ c = 45
    · rw [if_pos hsign] at h2
      have hscan : scanDigits 10 (cs ++ r) 0 = (0, 0) := by
        cases cs with
        | nil => exact hstop0 0
        | cons c2 cs =>
          apply scanDigits_stop
          intro x hx
          simp only [List.cons_append, List.head?_cons, Option.some.injEq] at hx
          subst hx
          apply digitValue_not_decimal
          simpa using h2
      have hsign2 : c = 45 ∨ c = 43 := hsign.symm
      simp [parseSubject, List.takeWhile_cons, hsp, hsign2, hscan]
    · rw [if_neg hsign] at h2
      have hscan : scanDigits 10 (c :: (cs ++ r)) 0 = (0, 0) := by
        apply scanDigits_stop
        intro x hx
        simp only [List.head?_cons, Option.some.injEq] at hx
        subst hx
        apply digitValue_not_decimal
        simpa using h2
      have hsign2 : ¬ (c = 45 ∨ c = 43) := fun hh => hsign hh.symm
      simp [parseSubject, List.takeWhile_cons, hsp, hsign2, hscan]

theorem strtol_numeral (bits : Nat) (negative : Bool) (ds x : List Nat) (hne : ds ≠ [])
    (hds : ∀ d ∈ ds, d < 10) (hx : ∀ c, x.head? = some c → isDecimalDigit c = false)
    (hlo : signedMin bits ≤ numeralValue negative ds)
    (hhi : numeralValue negative ds ≤ signedMax bits) :
    strtol bits (numeralString negative ds ++ x) 10
      = ⟨numeralValue negative ds, (numeralString negative ds).length, 0⟩ := by
  unfold strtol
  rw [if_neg (by omega)]
  have hp : (10 : Int).toNat = 10 := rfl
  simp only [hp, parseSubject_numeral negative ds x hne hds hx]
  have hv : (if negative = true then -((Nat.ofDigits 10 ds.reverse : Nat) : Int)
      else ((Nat.ofDigits 10 ds.reverse : Nat) : Int)) = numeralValue negative ds := by
    rfl
  rw [hv, if_neg (by omega), if_neg (by omega)]

theorem strtol_noNumber (bits : Nat) (tok r : List Nat) (h : noNumber tok = true)
    (hr : ∀ c, r.head? = some c → c = 0) : (strtol bits (tok ++ r) 10).consumed = 0 := by
  unfold strtol
  rw [if_neg (by omega)]
  have hp : (10 : Int).toNat = 10 := rfl
  simp only [hp, parseSubject_noNumber tok r h hr]
  split_ifs <;> rfl

theorem numeralString_length_pos (negative : Bool) (ds : List Nat) (hne : ds ≠ []) :
    (numeralString negative ds).length ≠ 0 := by
  cases ds with
  | nil => exact absurd rfl hne
  | cons d ds => cases negative <;> simp [numeralString]

theorem toSigned_of_range (bits : Nat) (v : Int) (hbits : 0 < bits)
    (hlo : signedMin bits ≤ v) (hhi : v ≤ signedMax bits) : toSigned bits v = v := by
  unfold toSigned
  unfold signedMin at hlo
  unfold signedMax at hhi
  obtain ⟨k, rfl⟩ : ∃ k, bits = k + 1 := ⟨bits - 1, by omega⟩
  simp only [Nat.add_sub_cancel] at hlo hhi ⊢
  have h2 : (2 : Int) ^ (k + 1) = 2 * 2 ^ k := by ring
  rw [h2, Int.emod_eq_of_lt (by omega) (by omega)]
  omega

theorem getNum_none {T TI : Type} (lt gt : TI → T → Bool) (conv : TI → T)
    (strtoX : List Nat → Int → StrtoResult TI) (num min max : T) (base : Int) (s : StreamCmd)
    (h : s.next.1 = none) :
    getNum lt gt conv strtoX num min max base s = (GetResult.ArgNone, num, s.next.2) := by
  unfold getNum
  cases hn : s.next with
  | mk a b =>
    rw [hn] at h
    simp only at h
    subst h
    rfl

theorem getNum_some {T TI : Type} (lt gt : TI → T → Bool) (conv : TI → T)
    (strtoX : List Nat → Int → StrtoResult TI) (num min max : T) (base : Int) (s : StreamCmd)
    (p : Nat) (h : s.next.1 = some p) :
    getNum lt gt conv strtoX num min max base s =
      if (strtoX (s.next.2.m_commandLine.drop p) base).errno ≠ 0 ∨
          (strtoX (s.next.2.m_commandLine.drop p) base).consumed = 0 then
        (GetResult.ArgInvalid, num, s.next.2)
      else if lt (strtoX (s.next.2.m_commandLine.drop p) base).value min then
        (GetResult.ArgTooSmall, num, s.next.2)
      else if gt (strtoX (s.next.2.m_commandLine.drop p) base).value max then
        (GetResult.ArgTooLarge, num, s.next.2)
      else
        (GetResult.ArgOk, conv (strtoX (s.next.2.m_commandLine.drop p) base).value,
          s.next.2) := by
  unfold getNum
  cases hn : s.next with
  | mk a b =>
    rw [hn] at h
    simp only at h
    subst h
    rfl

/-- `getInt` in base 10 on a token that starts with a decimal numeral whose value a
`long` holds and goes on with something that is not a decimal digit: the value is
compared with the bounds and stored when it lies within them. -/
theorem getInt_numeral_then (lim : Limits) (n min max : Int) (s : StreamCmd) (p : Nat)
    (negative : Bool) (ds trailing : List Nat)
    (hint : 0 < lim.intBits) (hmin : signedMin lim.intBits ≤ min)
    (hmax : max ≤ signedMax lim.intBits)
    (hnext : s.next.1 = some p)
    (htok : s.next.2.tokenString p = numeralString negative ds ++ trailing)
    (hne : ds ≠ []) (hds : ∀ d ∈ ds, d < 10)
    (htr : ∀ c, trailing.head? = some c → isDecimalDigit c = false)
    (hlo : signedMin lim.longBits ≤ numeralValue negative ds)
    (hhi : numeralValue negative ds ≤ signedMax lim.longBits) :
    getInt lim n min max 10 s =
      if numeralValue negative ds < min then (GetResult.ArgTooSmall, n, s.next.2)
      else if numeralValue negative ds > max then (GetResult.ArgTooLarge, n, s.next.2)
      else (GetResult.ArgOk, numeralValue negative ds, s.next.2) := by
  obtain ⟨r, hr, hr0⟩ := drop_eq_cstr_append s.next.2.m_commandLine p
  have htok2 : cstr s.next.2.m_commandLine p = numeralString negative ds ++ trailing := htok
  rw [htok2, List.append_assoc] at hr
  have hx : ∀ c, (trailing ++ r).head? = some c → isDecimalDigit c = false := by
    intro c hc
    cases trailing with
    | nil =>
      have := hr0 c (by simpa using hc)
      subst this
      rfl
    | cons t ts => exact htr c (by simpa using hc)
  unfold getInt
  rw [getNum_some _ _ _ _ _ _ _ _ _ p hnext, hr,
    strtol_numeral lim.longBits negative ds _ hne hds hx hlo hhi]
  simp only [ne_eq, not_true_eq_false, numeralString_length_pos negative ds hne, or_self,
    ↓reduceIte, intLt, intGt, decide_eq_true_eq, gt_iff_lt]
  by_cases h1 : numeralValue negative ds < min
  · simp [h1]
  · by_cases h2 : max < numeralValue negative ds
    · simp [h1, h2]
    · simp only [h1, h2, ↓reduceIte]
      rw [toSigned_of_range _ _ hint (by omega) (by omega)]


/-! ## The argument getters -/

/-- C7 (amended). `getInt` in base 10 with bounds `min <= max` of type `int`: without a
token it returns `ArgNone`; on a token without a parseable number it returns
`ArgInvalid`; on a token that is a decimal numeral of a value `v` that a `long` holds it
returns `ArgTooSmall` when `v < min`, `ArgTooLarge` when `v > max`, and otherwise `ArgOk`
with `v` stored. The output is left as it was unless the result is `ArgOk`. -/
theorem getInt_result (lim : Limits) (n min max : Int) (s : StreamCmd)
    (hint : 0 < lim.intBits) (hmin : signedMin lim.intBits ≤ min)
    (hmax : max ≤ signedMax lim.intBits) (hmm : min ≤ max) :
    (s.next.1 = none → getInt lim n min max 10 s = (GetResult.ArgNone, n, s.next.2)) ∧
    (∀ p, s.next.1 = some p → noNumber (s.next.2.tokenString p) = true →
      getInt lim n min max 10 s = (GetResult.ArgInvalid, n, s.next.2)) ∧
    (∀ p negative ds, s.next.1 = some p →
      s.next.2.tokenString p = numeralString negative ds → ds ≠ [] →
      (∀ d ∈ ds, d < 10) →
      signedMin lim.longBits ≤ numeralValue negative ds →
      numeralValue negative ds ≤ signedMax lim.longBits →
      (numeralValue negative ds < min →
        getInt lim n min max 10 s = (GetResult.ArgTooSmall, n, s.next.2)) ∧
      (numeralValue negative ds > max →
        getInt lim n min max 10 s = (GetResult.ArgTooLarge, n, s.next.2)) ∧
      (min ≤ numeralValue negative ds → numeralValue negative ds ≤ max →
        getInt lim n min max 10 s = (GetResult.ArgOk, numeralValue negative ds, s.next.2))) := by
  refine ⟨fun h => getNum_none _ _ _ _ _ _ _ _ _ h, ?_, ?_⟩
  · intro p hp hno
    obtain ⟨r, hr, hr0⟩ := drop_eq_cstr_append s.next.2.m_commandLine p
    unfold getInt
    rw [getNum_some _ _ _ _ _ _ _ _ _ p hp, hr]
    have hc : (strtol lim.longBits (cstr s.next.2.m_commandLine p ++ r) 10).consumed = 0 :=
      strtol_noNumber lim.longBits _ r hno hr0
    rw [if_pos (Or.inr hc)]
  · intro p negative ds hp htok hne hds hlo hhi
    have key := getInt_numeral_then lim n min max s p negative ds [] hint hmin hmax hp
      (by simpa using htok) hne hds (by simp) hlo hhi
    refine ⟨fun h => ?_, fun h => ?_, fun h1 h2 => ?_⟩
    · rw [key, if_pos h]
    · rw [key, if_neg (by omega), if_pos h]
    · rw [key, if_neg (by omega), if_neg (by omega)]

/-- C7, witness: bounds 0 and 10, the arguments `15`, `abc`, none and `7`. -/
theorem getInt_result_witness :
    getInt ilp32 99 0 10 10 (called "cmd 7") = (GetResult.ArgOk, 7, (called "cmd 7").next.2) ∧
    (getInt ilp32 99 0 10 10 (called "cmd 15")).1 = GetResult.ArgTooLarge ∧
    (getInt ilp32 99 0 10 10 (called "cmd 15")).2.1 = 99 ∧
    (getInt ilp32 99 0 10 10 (called "cmd abc")).1 = GetResult.ArgInvalid ∧
    (getInt ilp32 99 0 10 10 (called "cmd")).1 = GetResult.ArgNone :=
  ⟨((getInt_result ilp32 99 0 10 (called "cmd 7") (by decide) (by decide) (by decide)
      (by decide)).2.2 4 false [7] (by decide) (by decide) (by decide) (by decide) (by decide)
      (by decide)).2.2 (by decide) (by decide),
   by decide, by decide, by decide, by decide⟩

/-- C7, counterexample: the argument is the decimal numeral of 99999999999999999999,
which is above the maximum 10, and `getInt` returns `ArgInvalid`, not `ArgTooLarge`,
with a `long` of 32 bits and with one of 64 bits. -/
theorem getInt_numeral_out_of_long :
    (called "cmd 99999999999999999999").next.1 = some 4 ∧
    (called "cmd 99999999999999999999").next.2.tokenString 4
      = numeralString false (List.replicate 20 9) ∧
    (getInt ilp32 99 0 10 10 (called "cmd 99999999999999999999")).1 = GetResult.ArgInvalid ∧
    (getInt lp64 99 0 10 10 (called "cmd 99999999999999999999")).1 = GetResult.ArgInvalid := by
  decide

theorem getNum_invalid_iff {T TI : Type} (lt gt : TI → T → Bool) (conv : TI → T)
    (strtoX : List Nat → Int → StrtoResult TI) (num min max : T) (base : Int)
    (s : StreamCmd) :
    (getNum lt gt conv strtoX num min max base s).1 = GetResult.ArgInvalid ↔
      ∃ p, s.next.1 = some p ∧
        ((strtoX (s.next.2.m_commandLine.drop p) base).errno ≠ 0 ∨
          (strtoX (s.next.2.m_commandLine.drop p) base).consumed = 0) := by
  cases hn : s.next.1 with
  | none =>
    rw [getNum_none _ _ _ _ _ _ _ _ _ hn]
    simp
  | some p =>
    rw [getNum_some _ _ _ _ _ _ _ _ _ p hn]
    simp only [Option.some.injEq, exists_eq_left']
    split_ifs with h1 h2 h3 <;> simp [h1]

/-- C8 (amended). A numeric getter returns `ArgInvalid` exactly when there is a token and
the conversion set `errno` or read no character of it; what follows the characters read
is not looked at. So `getInt` in base 10 on a token that starts with a decimal numeral
of a value `v` that a `long` holds and goes on with something that is not a decimal
digit returns what it returns on the numeral alone: `ArgTooSmall` when `v < min`,
`ArgTooLarge` when `v > max`, otherwise `ArgOk` with `v` stored. -/
theorem getNum_trailing_ignored {T TI : Type} (lt gt : TI → T → Bool) (conv : TI → T)
    (strtoX : List Nat → Int → StrtoResult TI) (num min max : T) (base : Int)
    (lim : Limits) (n imin imax : Int) (s : StreamCmd)
    (hint : 0 < lim.intBits) (hmin : signedMin lim.intBits ≤ imin)
    (hmax : imax ≤ signedMax lim.intBits) :
    ((getNum lt gt conv strtoX num min max base s).1 = GetResult.ArgInvalid ↔
      ∃ p, s.next.1 = some p ∧
        ((strtoX (s.next.2.m_commandLine.drop p) base).errno ≠ 0 ∨
          (strtoX (s.next.2.m_commandLine.drop p) base).consumed = 0)) ∧
    (∀ p negative ds trailing, s.next.1 = some p →
      s.next.2.tokenString p = numeralString negative ds ++ trailing → ds ≠ [] →
      (∀ d ∈ ds, d < 10) → (∀ c, trailing.head? = some c → isDecimalDigit c = false) →
      signedMin lim.longBits ≤ numeralValue negative ds →
      numeralValue negative ds ≤ signedMax lim.longBits →
      getInt lim n imin imax 10 s =
        if numeralValue negative ds < imin then (GetResult.ArgTooSmall, n, s.next.2)
        else if numeralValue negative ds > imax then (GetResult.ArgTooLarge, n, s.next.2)
        else (GetResult.ArgOk, numeralValue negative ds, s.next.2)) :=
  ⟨getNum_invalid_iff lt gt conv strtoX num min max base s,
   fun p negative ds trailing hp htok hne hds htr hlo hhi =>
    getInt_numeral_then lim n imin imax s p negative ds trailing hint hmin hmax hp htok hne hds
      htr hlo hhi⟩

/-- C8, witness: the argument `12abc` with the bounds 0 and 100. -/
theorem getNum_trailing_ignored_witness :
    getInt ilp32 99 0 100 10 (called "cmd 12abc")
      = (GetResult.ArgOk, 12, (called "cmd 12abc").next.2) :=
  ((getNum_trailing_ignored intLt intGt (toSigned 32) (strtol 32) 99 0 100 10 ilp32 99 0 100
      (called "cmd 12abc") (by decide) (by decide) (by decide)).2 4 false [1, 2] (ascii "abc")
      (by decide) (by decide) (by decide) (by decide) (by decide) (by decide)
      (by decide)).trans (by decide)

/-- C8, counterexample: on the arguments `12abc` and `7x` `getInt` returns `ArgOk` and
stores 12 and 7. -/
theorem getInt_accepts_trailing :
    (getInt ilp32 99 0 100 10 (called "cmd 12abc")).1 = GetResult.ArgOk ∧
    (getInt ilp32 99 0 100 10 (called "cmd 12abc")).2.1 = 12 ∧
    (getInt ilp32 99 0 10 10 (called "cmd 7x")).1 = GetResult.ArgOk ∧
    (getInt ilp32 99 0 10 10 (called "cmd 7x")).2.1 = 7 := by
  decide


theorem getOption_none (idx : Nat) (options : List (List Nat)) (size : Nat) (s : StreamCmd)
    (h : s.next.1 = none) :
    getOption idx options size s = (GetResult.ArgNone, idx, s.next.2) := by
  unfold getOption
  cases hn : s.next with
  | mk a b =>
    rw [hn] at h
    simp only at h
    subst h
    rfl

theorem getOption_some (idx : Nat) (options : List (List Nat)) (size : Nat) (s : StreamCmd)
    (p : Nat) (h : s.next.1 = some p) :
    getOption idx options size s =
      match findOption options (s.next.2.m_commandLine.drop p) size with
      | some i => (GetResult.ArgOk, i, s.next.2)
      | none => (GetResult.ArgNoMatch, idx, s.next.2) := by
  unfold getOption
  cases hn : s.next with
  | mk a b =>
    rw [hn] at h
    simp only at h
    subst h
    rfl

/-- C9. A numeric getter (any instance of `getNum`) and `getOption` leave the output
variable as it was whenever they return something other than `ArgOk`. -/
theorem getter_output_unchanged {T TI : Type} (lt gt : TI → T → Bool) (conv : TI → T)
    (strtoX : List Nat → Int → StrtoResult TI) (num min max : T) (base : Int)
    (idx : Nat) (options : List (List Nat)) (size : Nat) (s : StreamCmd) :
    ((getNum lt gt conv strtoX num min max base s).1 ≠ GetResult.ArgOk →
      (getNum lt gt conv strtoX num min max base s).2.1 = num) ∧
    ((getOption idx options size s).1 ≠ GetResult.ArgOk →
      (getOption idx options size s).2.1 = idx) := by
  constructor
  · cases hn : s.next.1 with
    | none =>
      rw [getNum_none _ _ _ _ _ _ _ _ _ hn]
      intro _
      rfl
    | some p =>
      rw [getNum_some _ _ _ _ _ _ _ _ _ p hn]
      split_ifs <;> simp
  · cases hn : s.next.1 with
    | none =>
      rw [getOption_none _ _ _ _ hn]
      intro _
      rfl
    | some p =>
      rw [getOption_some _ _ _ _ p hn]
      cases findOption options (s.next.2.m_commandLine.drop p) size <;> simp

/-- C9, witness: `getInt` on the argument `15` with the bounds 0 and 10, and `getOption`
on the argument `maybe` with the candidates `on` and `off`. -/
theorem getter_output_unchanged_witness :
    (getInt ilp32 99 0 10 10 (called "cmd 15")).2.1 = 99 ∧
    (getOption 7 [ascii "on", ascii "off"] 2 (called "cmd maybe")).2.1 = 7 :=
  ⟨(getter_output_unchanged intLt intGt (toSigned 32) (strtol 32) 99 0 10 10 7
      [ascii "on", ascii "off"] 2 (called "cmd 15")).1 (by decide),
   (getter_output_unchanged intLt intGt (toSigned 32) (strtol 32) 99 0 10 10 7
      [ascii "on", ascii "off"] 2 (called "cmd maybe")).2 (by decide)⟩

theorem strcmp_candidate (v mem : List Nat) (p : Nat) :
    strcmp v (mem.drop p) = 0 ↔ cstr v 0 = cstr mem p := by
  rw [strcmp_eq_zero_iff, cstr_drop]

/-- C10. `getOption` on a list of candidates: without a token it returns `ArgNone`; when
the candidate at position `i` is the token, byte for byte, and no candidate before it
is, it returns `ArgOk` with the index `i`; when no candidate is the token it returns
`ArgNoMatch`. The index is left as it was unless the result is `ArgOk`. -/
theorem getOption_result (idx : Nat) (vals : List (List Nat)) (s : StreamCmd) :
    (s.next.1 = none → getOptionVals idx vals s = (GetResult.ArgNone, idx, s.next.2)) ∧
    (∀ p, s.next.1 = some p →
      (∀ i, i < vals.length → cstr (vals.getD i []) 0 = s.next.2.tokenString p →
        (∀ j, j < i → cstr (vals.getD j []) 0 ≠ s.next.2.tokenString p) →
        getOptionVals idx vals s = (GetResult.ArgOk, i, s.next.2)) ∧
      ((∀ i, i < vals.length → cstr (vals.getD i []) 0 ≠ s.next.2.tokenString p) →
        getOptionVals idx vals s = (GetResult.ArgNoMatch, idx, s.next.2))) := by
  refine ⟨fun h => getOption_none _ _ _ _ h, fun p hp => ⟨fun i hi hmatch hfirst => ?_,
    fun hall => ?_⟩⟩
  · have hfound : findOption vals (s.next.2.m_commandLine.drop p) vals.length = some i := by
      unfold findOption
      apply firstIndex_eq_some _ _ _ hi
      · simp only [decide_eq_true_eq]
        rw [strcmp_candidate]
        exact hmatch
      · intro j hj
        simp only [decide_eq_false_iff_not]
        rw [strcmp_candidate]
        exact hfirst j hj
    unfold getOptionVals
    rw [getOption_some _ _ _ _ p hp, hfound]
  · have hfound : findOption vals (s.next.2.m_commandLine.drop p) vals.length = none := by
      unfold findOption
      apply firstIndex_eq_none
      intro j hj
      simp only [decide_eq_false_iff_not]
      rw [strcmp_candidate]
      exact hall j hj
    unfold getOptionVals
    rw [getOption_some _ _ _ _ p hp, hfound]

/-- C10, witness: the candidates `on` and `off` with the arguments `off` and `maybe`. -/
theorem getOption_result_witness :
    getOptionVals 7 [ascii "on", ascii "off"] (called "cmd off")
      = (GetResult.ArgOk, 1, (called "cmd off").next.2) ∧
    getOptionVals 7 [ascii "on", ascii "off"] (called "cmd maybe")
      = (GetResult.ArgNoMatch, 7, (called "cmd maybe").next.2) ∧
    (getOptionVals 7 [ascii "on", ascii "off"] (called "cmd o")).1 = GetResult.ArgNoMatch ∧
    (getOptionVals 7 [ascii "on", ascii "off"] (called "cmd ON")).1 = GetResult.ArgNoMatch ∧
    (getOptionVals 7 [ascii "on", ascii "off"] (called "cmd")).1 = GetResult.ArgNone :=
  ⟨((getOption_result 7 [ascii "on", ascii "off"] (called "cmd off")).2 4 (by decide)).1 1
      (by decide) (by decide) (by decide),
   ((getOption_result 7 [ascii "on", ascii "off"] (called "cmd maybe")).2 4 (by decide)).2
      (by decide),
   by decide, by decide, by decide⟩

/-! ## Command sets -/

theorem modifySet_set (s : StreamCmd) (f : CommandSet → CommandSet)
    (h : s.m_currentCommandSet < s.m_commandSets.length) : (s.modifySet f).set = f s.set :=
  getD_modify_self f s.m_commandSets s.m_currentCommandSet default h

theorem addCommand_eq (cfg : Config) (command : List Nat) (cb : Nat) (s : StreamCmd) :
    ∃ out, s.addCommand cfg command cb =
      modifySet { s with m_stream := out } (fun cs =>
        { cs with
          m_commandList := cs.m_commandList.modify
            (fun e => ⟨strncpy e.command command cfg.MaxCommandSize, cb⟩) s.set.m_commandCount
          m_commandCount := (s.set.m_commandCount + 1) % 256 }) := by
  unfold addCommand
  simp only
  split
  · exact ⟨_, rfl⟩
  · exact ⟨s.m_stream, rfl⟩

theorem addCommand_frame (cfg : Config) (command : List Nat) (cb : Nat) (s : StreamCmd) :
    (s.addCommand cfg command cb).m_currentCommandSet = s.m_currentCommandSet ∧
    (s.addCommand cfg command cb).m_commandSets.length = s.m_commandSets.length ∧
    (s.addCommand cfg command cb).m_commandLine = s.m_commandLine ∧
    (s.addCommand cfg command cb).m_delimiter = s.m_delimiter ∧
    (s.addCommand cfg command cb).m_last = s.m_last ∧
    (s.addCommand cfg command cb).m_pos = s.m_pos := by
  obtain ⟨out, ho⟩ := addCommand_eq cfg command cb s
  rw [ho]
  simp [modifySet]

theorem addCommand_count (cfg : Config) (command : List Nat) (cb : Nat) (s : StreamCmd)
    (h : s.m_currentCommandSet < s.m_commandSets.length) :
    (s.addCommand cfg command cb).set.m_commandCount = (s.set.m_commandCount + 1) % 256 := by
  obtain ⟨out, ho⟩ := addCommand_eq cfg command cb s
  rw [ho, modifySet_set { s with m_stream := out } _ h]

/-- The count of the active table after a series of registrations: the `uint8_t` count
goes up by one with every `addCommand`, modulo 256. -/
theorem addCommands_count (cfg : Config) : ∀ (cmds : List (List Nat × Nat)) (s : StreamCmd),
    s.m_currentCommandSet < s.m_commandSets.length → s.set.m_commandCount < 256 →
    (addCommands cfg cmds s).m_currentCommandSet = s.m_currentCommandSet ∧
    (addCommands cfg cmds s).set.m_commandCount = (s.set.m_commandCount + cmds.length) % 256 := by
  intro cmds
  induction cmds with
  | nil =>
    intro s _ hc
    exact ⟨rfl, (Nat.mod_eq_of_lt hc).symm⟩
  | cons c rest ih =>
    intro s h hc
    obtain ⟨h1, h2, _⟩ := addCommand_frame cfg c.1 c.2 s
    have hcount := addCommand_count cfg c.1 c.2 s h
    obtain ⟨i1, i2⟩ := ih (s.addCommand cfg c.1 c.2) (by rw [h1, h2]; exact h)
      (by rw [hcount]; exact Nat.mod_lt _ (by decide))
    refine ⟨by rw [addCommands, i1, h1], ?_⟩
    rw [addCommands, i2, hcount, List.length_cons]
    omega

/-- With at most 255 commands per set, `k` registrations on an empty table make
`getNumCommandsRegistered` return `k`, whatever `k`; the index of the set is one the
`uint8_t` parameter holds. -/
theorem registered_count_small (cfg : Config) (cmds : List (List Nat × Nat)) (s : StreamCmd)
    (hin : s.m_currentCommandSet < cfg.NumCommandSets)
    (hbyte : s.m_currentCommandSet < 256)
    (hlen : s.m_currentCommandSet < s.m_commandSets.length)
    (hempty : s.set.m_commandCount = 0) (hk : cmds.length ≤ 255) :
    getNumCommandsRegistered cfg s.m_currentCommandSet (addCommands cfg cmds s)
      = cmds.length := by
  obtain ⟨h1, h2⟩ := addCommands_count cfg cmds s hlen (by omega)
  unfold getNumCommandsRegistered
  rw [Nat.mod_eq_of_lt hbyte, if_neg (by omega)]
  have : (addCommands cfg cmds s).set.m_commandCount = cmds.length := by
    rw [h2, hempty]; omega
  rw [← this]
  simp only [set, h1]

/-- For an index the `uint8_t` parameter holds that is not below `NumCommandSets`,
`getNumCommandsRegistered` returns 0 whatever the state. -/
theorem registered_count_out_of_range (cfg : Config) (i : Nat) (s : StreamCmd)
    (hbyte : i < 256) (hout : cfg.NumCommandSets ≤ i) :
    getNumCommandsRegistered cfg i s = 0 := by
  unfold getNumCommandsRegistered
  rw [Nat.mod_eq_of_lt hbyte, if_pos hout]

/-- C11 (amended). The parameter of `switchCommandSet` is a `uint8_t`. For every index
`i` it holds (`i < 256`): when `i < NumCommandSets` the call returns true and leaves the
object with `i` as the active set and nothing else changed; otherwise it returns false
and leaves the object as it is. A larger argument is converted first: the call is the
call with the argument modulo 256. In all cases the command tables, the line buffer, the
write position, the tokenizer state and the stream are unchanged. -/
theorem switchCommandSet_result (cfg : Config) (i : Nat) (s : StreamCmd) :
    (i < 256 → i < cfg.NumCommandSets →
      switchCommandSet cfg i s = (true, { s with m_currentCommandSet := i }) ∧
      (switchCommandSet cfg i s).2.getCommandSet = i) ∧
    (i < 256 → ¬ i < cfg.NumCommandSets →
      switchCommandSet cfg i s = (false, s) ∧
      (switchCommandSet cfg i s).2.getCommandSet = s.getCommandSet) ∧
    switchCommandSet cfg i s = switchCommandSet cfg (i % 256) s ∧
    (switchCommandSet cfg i s).2.m_commandSets = s.m_commandSets ∧
    (switchCommandSet cfg i s).2.m_commandLine = s.m_commandLine ∧
    (switchCommandSet cfg i s).2.m_pos = s.m_pos ∧
    (switchCommandSet cfg i s).2.m_last = s.m_last ∧
    (switchCommandSet cfg i s).2.m_current = s.m_current ∧
    (switchCommandSet cfg i s).2.m_stream = s.m_stream := by
  refine ⟨fun hb hi => ?_, fun hb hi => ?_, ?_, ?_⟩
  · unfold switchCommandSet getCommandSet
    rw [Nat.mod_eq_of_lt hb, if_neg (by omega)]
    exact ⟨rfl, rfl⟩
  · unfold switchCommandSet getCommandSet
    rw [Nat.mod_eq_of_lt hb, if_pos (by omega)]
    exact ⟨rfl, rfl⟩
  · unfold switchCommandSet
    rw [Nat.mod_mod]
  · unfold switchCommandSet
    split <;> exact ⟨rfl, rfl, rfl, rfl, rfl, rfl⟩

/-- C11, witness: with two sets, switching to set 1 succeeds and switching to set 2
fails and leaves set 1 active. -/
theorem switchCommandSet_result_witness :
    (switchCommandSet tinyConfig 1 tinyFull
      = (true, { tinyFull with m_currentCommandSet := 1 }) ∧
     (switchCommandSet tinyConfig 1 tinyFull).2.getCommandSet = 1) ∧
    (switchCommandSet tinyConfig 2 (switchCommandSet tinyConfig 1 tinyFull).2
      = (false, (switchCommandSet tinyConfig 1 tinyFull).2) ∧
     (switchCommandSet tinyConfig 2 (switchCommandSet tinyConfig 1 tinyFull).2).2.getCommandSet
      = (switchCommandSet tinyConfig 1 tinyFull).2.getCommandSet) ∧
    (switchCommandSet tinyConfig 2 (switchCommandSet tinyConfig 1 tinyFull).2).2.getCommandSet
      = 1 :=
  ⟨(switchCommandSet_result tinyConfig 1 tinyFull).1 (by decide) (by decide),
   (switchCommandSet_result tinyConfig 2 (switchCommandSet tinyConfig 1 tinyFull).2).2.1
      (by decide) (by decide),
   by decide⟩

/-- C11, counterexample: with two sets and set 1 active, `switchCommandSet(256)` returns
true and makes set 0 the active one, although 256 is not below `NumCommandSets`; with
300 sets, `switchCommandSet(260)` returns true and makes set 4 the active one, not set
260. -/
theorem switchCommandSet_wraps :
    ¬ 256 < tinyConfig.NumCommandSets ∧
    (switchCommandSet tinyConfig 1 tiny).2.getCommandSet = 1 ∧
    (switchCommandSet tinyConfig 256 (switchCommandSet tinyConfig 1 tiny).2).1 = true ∧
    (switchCommandSet tinyConfig 256 (switchCommandSet tinyConfig 1 tiny).2).2.getCommandSet
      = 0 ∧
    260 < setsConfig.NumCommandSets ∧
    (switchCommandSet setsConfig 260 sets).1 = true ∧
    (switchCommandSet setsConfig 260 sets).2.getCommandSet = 4 := by
  decide

/-- C12 (defect). With the table full (two commands of two), `addCommand` prints the
overflow message and goes on: the count becomes 3, above `MaxCommands`, and a further
`addCommand` makes it 4 without any message. (The store to `m_commandList[2]` is outside
the array and is not modelled.) -/
theorem addCommand_full_table :
    tinyFull.set.m_commandCount = tinyConfig.MaxCommands ∧
    (tinyFull.addCommand tinyConfig (ascii "c") 3).set.m_commandCount = 3 ∧
    (tinyFull.addCommand tinyConfig (ascii "c") 3).m_stream =
      [Printed.print "StreamCmd command list overflow, dropping command \"",
       Printed.printChars (ascii "c"),
       Printed.println "\", increase StreamCmd's MaxCommands template argument"] ∧
    ((tinyFull.addCommand tinyConfig (ascii "c") 3).addCommand tinyConfig
      (ascii "d") 4).set.m_commandCount = 4 ∧
    ((tinyFull.addCommand tinyConfig (ascii "c") 3).addCommand tinyConfig
      (ascii "d") 4).m_stream = (tinyFull.addCommand tinyConfig (ascii "c") 3).m_stream := by
  decide

/-- C14 (defect). With `MaxCommands = 256`, after 256 `addCommand` calls on the empty
table of set 0 `getNumCommandsRegistered(0)` returns 0: the `uint8_t` count has wrapped. -/
theorem registered_count_wraps :
    getNumCommandsRegistered manyConfig 0
      (addCommands manyConfig (List.replicate 256 (ascii "c", 1)) many) = 0 := by
  have h := addCommands_count manyConfig (List.replicate 256 (ascii "c", 1)) many
    (by decide) (by decide)
  have h0 : many.set.m_commandCount = 0 := by decide
  have hc : many.m_currentCommandSet = 0 := rfl
  unfold getNumCommandsRegistered
  rw [Nat.zero_mod, if_neg (by decide)]
  have h2 := h.2
  rw [h0, List.length_replicate] at h2
  simp only [set, h.1, hc] at h2
  rw [h2]


theorem getNum_too_small {T TI : Type} (lt gt : TI → T → Bool) (conv : TI → T)
    (strtoX : List Nat → Int → StrtoResult TI) (num min max : T) (base : Int) (s : StreamCmd)
    (p : Nat) (h : s.next.1 = some p)
    (herr : (strtoX (s.next.2.m_commandLine.drop p) base).errno = 0)
    (hcon : (strtoX (s.next.2.m_commandLine.drop p) base).consumed ≠ 0)
    (hlt : lt (strtoX (s.next.2.m_commandLine.drop p) base).value min = true) :
    getNum lt gt conv strtoX num min max base s = (GetResult.ArgTooSmall, num, s.next.2) := by
  rw [getNum_some _ _ _ _ _ _ _ _ _ p h, if_neg (by simp [herr, hcon]), if_pos hlt]

/-- A floating-point getter called with a least positive normalized number as lower
bound rejects every argument whose value is zero or negative as too small. -/
theorem getNum_positive_min (conv : ℚ → ℚ) (strtod : List Nat → StrtoResult ℚ)
    (num min max : ℚ) (s : StreamCmd) (p : Nat) (hmin : 0 < min) (h : s.next.1 = some p)
    (herr : (strtod (s.next.2.m_commandLine.drop p)).errno = 0)
    (hcon : (strtod (s.next.2.m_commandLine.drop p)).consumed ≠ 0)
    (hval : (strtod (s.next.2.m_commandLine.drop p)).value ≤ 0) :
    getNum ratLt ratGt conv (fun str _ => strtod str) num min max 10 s
      = (GetResult.ArgTooSmall, num, s.next.2) := by
  apply getNum_too_small _ _ _ _ _ _ _ _ _ p h herr hcon
  simp only [ratLt, decide_eq_true_eq]
  exact lt_of_le_of_lt hval hmin

theorem ieee_min_pos : 0 < ieee.FLT_MIN ∧ 0 < ieee.DBL_MIN ∧ 0 < ieee.LDBL_MIN := by
  simp only [ieee]
  norm_num

theorem strtodInteger_zero :
    strtodInteger ((called "cmd 0").next.2.m_commandLine.drop 4) = ⟨0, 1, 0⟩ := by
  have hp : parseSubject ((called "cmd 0").next.2.m_commandLine.drop 4) 10 = ⟨false, 0, 1⟩ := by
    decide
  simp [strtodInteger, hp]

theorem strtodInteger_minus_one :
    strtodInteger ((called "cmd -1").next.2.m_commandLine.drop 4) = ⟨-1, 2, 0⟩ := by
  have hp : parseSubject ((called "cmd -1").next.2.m_commandLine.drop 4) 10 = ⟨true, 1, 2⟩ := by
    decide
  simp [strtodInteger, hp]

/-- C15 (defect). Called with their default bounds on the arguments `0` and `-1`,
`getFloat`, `getDouble` and `getLDouble` return `ArgTooSmall` and leave the output as it
was: the default lower bounds `FLT_MIN`, `DBL_MIN` and `LDBL_MIN` are the least positive
normalized numbers, not the least values of the types. -/
theorem float_defaults_reject :
    getFloat strtodInteger id 5 ieee.FLT_MIN ieee.FLT_MAX (called "cmd 0")
      = (GetResult.ArgTooSmall, 5, (called "cmd 0").next.2) ∧
    getFloat strtodInteger id 5 ieee.FLT_MIN ieee.FLT_MAX (called "cmd -1")
      = (GetResult.ArgTooSmall, 5, (called "cmd -1").next.2) ∧
    getDouble strtodInteger 5 ieee.DBL_MIN ieee.DBL_MAX (called "cmd 0")
      = (GetResult.ArgTooSmall, 5, (called "cmd 0").next.2) ∧
    getDouble strtodInteger 5 ieee.DBL_MIN ieee.DBL_MAX (called "cmd -1")
      = (GetResult.ArgTooSmall, 5, (called "cmd -1").next.2) ∧
    getLDouble strtodInteger 5 ieee.LDBL_MIN ieee.LDBL_MAX (called "cmd 0")
      = (GetResult.ArgTooSmall, 5, (called "cmd 0").next.2) ∧
    getLDouble strtodInteger 5 ieee.LDBL_MIN ieee.LDBL_MAX (called "cmd -1")
      = (GetResult.ArgTooSmall, 5, (called "cmd -1").next.2) := by
  have h0 : (called "cmd 0").next.1 = some 4 := by decide
  have h1 : (called "cmd -1").next.1 = some 4 := by decide
  have z := strtodInteger_zero
  have m := strtodInteger_minus_one
  refine ⟨?_, ?_, ?_, ?_, ?_, ?_⟩
  · exact getNum_positive_min _ _ _ _ _ _ 4 ieee_min_pos.1 h0 (by rw [z]) (by rw [z]; decide)
      (by rw [z])
  · exact getNum_positive_min _ _ _ _ _ _ 4 ieee_min_pos.1 h1 (by rw [m]) (by rw [m]; decide)
      (by rw [m]; norm_num)
  · exact getNum_positive_min _ _ _ _ _ _ 4 ieee_min_pos.2.1 h0 (by rw [z]) (by rw [z]; decide)
      (by rw [z])
  · exact getNum_positive_min _ _ _ _ _ _ 4 ieee_min_pos.2.1 h1 (by rw [m]) (by rw [m]; decide)
      (by rw [m]; norm_num)
  · exact getNum_positive_min _ _ _ _ _ _ 4 ieee_min_pos.2.2 h0 (by rw [z]) (by rw [z]; decide)
      (by rw [z])
  · exact getNum_positive_min _ _ _ _ _ _ 4 ieee_min_pos.2.2 h1 (by rw [m]) (by rw [m]; decide)
      (by rw [m]; norm_num)

/-- C17 (defect). With the lower bound 0 and their default upper bounds on the argument
`-1`, `getUInt` (where `unsigned long` is as wide as `unsigned int`), `getULong` and
`getULLong` return `ArgOk` and store the greatest value of the type: `strtoul` negates
in the unsigned type. With a wider `unsigned long`, `getUInt` returns `ArgTooLarge`. -/
theorem unsigned_accepts_minus_one :
    IntGetter.getUInt.call ilp32 7 0 (unsignedMax 32) 10 (called "cmd -1")
      = (GetResult.ArgOk, 4294967295, (called "cmd -1").next.2) ∧
    IntGetter.getULong.call ilp32 7 0 (unsignedMax 32) 10 (called "cmd -1")
      = (GetResult.ArgOk, 4294967295, (called "cmd -1").next.2) ∧
    IntGetter.getULLong.call ilp32 7 0 (unsignedMax 64) 10 (called "cmd -1")
      = (GetResult.ArgOk, 18446744073709551615, (called "cmd -1").next.2) ∧
    IntGetter.getULong.call lp64 7 0 (unsignedMax 64) 10 (called "cmd -1")
      = (GetResult.ArgOk, 18446744073709551615, (called "cmd -1").next.2) ∧
    (IntGetter.getUInt.call lp64 7 0 (unsignedMax 32) 10 (called "cmd -1")).1
      = GetResult.ArgTooLarge ∧
    (IntGetter.getInt.call ilp32 7 0 (signedMax 32) 10 (called "cmd -1")).1
      = GetResult.ArgTooSmall := by
  decide


/-! ## The line buffer invariant -/

theorem strtok_r_mem (mem : List Nat) (s : Option Nat) (delim : List Nat) (lasts : Option Nat) :
    (strtok_r mem s delim lasts).mem =
      match strtokStore mem s delim lasts with
      | some e => mem.set e 0
      | none => mem := by
  unfold strtok_r strtokStore
  cases s.orElse (fun _ => lasts) with
  | none => rfl
  | some p =>
    simp only
    split_ifs <;> rfl

theorem strtokStore_lt (mem : List Nat) (s : Option Nat) (delim : List Nat)
    (lasts : Option Nat) (e : Nat) (h : strtokStore mem s delim lasts = some e) :
    e < mem.length := by
  unfold strtokStore at h
  cases hp : s.orElse (fun _ => lasts) with
  | none => rw [hp] at h; simp at h
  | some p =>
    rw [hp] at h
    simp only at h
    split_ifs at h with h1 h2
    injection h with h
    subst h
    by_contra hlt
    exact h2 (List.getD_eq_default _ _ (by omega))

theorem strtok_r_length (mem : List Nat) (s : Option Nat) (delim : List Nat)
    (lasts : Option Nat) : (strtok_r mem s delim lasts).mem.length = mem.length := by
  rw [strtok_r_mem]
  split <;> simp

theorem tokenizeLine_length (s : StreamCmd) :
    (tokenizeLine s).2.m_commandLine.length = s.m_commandLine.length :=
  strtok_r_length _ _ _ _

theorem tokenizeLine_inv (cfg : Config) (s : StreamCmd) (hs : BufferInv cfg s) :
    BufferInv cfg (tokenizeLine s).2 := by
  obtain ⟨hlen, hpos, hterm⟩ := hs
  refine ⟨by rw [tokenizeLine_length, hlen], hpos, ?_⟩
  show (strtok_r s.m_commandLine (some 0) (cstr s.m_delimiter 0) s.m_last).mem[s.m_pos]? = some 0
  rw [strtok_r_mem]
  cases he : strtokStore s.m_commandLine (some 0) (cstr s.m_delimiter 0) s.m_last with
  | none => exact hterm
  | some e =>
    simp only
    by_cases hep : e = s.m_pos
    · subst hep
      exact List.getElem?_set_self (strtokStore_lt _ _ _ _ _ he)
    · rw [List.getElem?_set_ne hep]
      exact hterm

theorem clearBuffer_inv (cfg : Config) (s : StreamCmd)
    (hlen : s.m_commandLine.length = cfg.CommandBufferSize + 1) : BufferInv cfg s.clearBuffer := by
  unfold BufferInv clearBuffer
  refine ⟨by simpa using hlen, Nat.zero_le _, ?_⟩
  simp only
  exact List.getElem?_set_self (by omega)

theorem finishLine_inv (cfg : Config) (s : StreamCmd)
    (hlen : s.m_commandLine.length = cfg.CommandBufferSize + 1) : BufferInv cfg (finishLine s) := by
  unfold finishLine
  cases s.m_prompt with
  | none => exact clearBuffer_inv cfg s hlen
  | some p => exact clearBuffer_inv cfg _ hlen

theorem dispatch_inv (cfg : Config) (h : Handlers) (s : StreamCmd) (hh : KeepsBufferSize h)
    (hlen : s.m_commandLine.length = cfg.CommandBufferSize + 1) :
    BufferInv cfg (dispatch cfg h s).1 := by
  have h1 : (tokenizeLine s).2.m_commandLine.length = cfg.CommandBufferSize + 1 := by
    rw [tokenizeLine_length, hlen]
  unfold dispatch
  simp only
  split
  · exact finishLine_inv cfg _ (by rw [hh.1, h1])
  · split
    · exact finishLine_inv cfg _ (by rw [hh.2, h1])
    · exact finishLine_inv cfg _ h1

theorem step_inv (cfg : Config) (h : Handlers) (raw : Nat) (s : StreamCmd)
    (hh : KeepsBufferSize h) (hs : BufferInv cfg s) : BufferInv cfg (step cfg h raw s).1 := by
  obtain ⟨hlen, hpos, hterm⟩ := hs
  unfold step
  simp only
  split
  · exact dispatch_inv cfg h s hh hlen
  · split
    · split
      · rename_i hlt
        have hle : (s.m_pos + 1) % 256 ≤ s.m_pos + 1 := Nat.mod_le _ _
        refine ⟨by simpa using hlen, by simp only; omega, ?_⟩
        simp only
        exact List.getElem?_set_self (by simp only [List.length_set]; omega)
      · exact ⟨hlen, hpos, hterm⟩
    · exact ⟨hlen, hpos, hterm⟩

theorem run_inv (cfg : Config) (h : Handlers) (hh : KeepsBufferSize h) :
    ∀ (input : List Nat) (s : StreamCmd), BufferInv cfg s →
    BufferInv cfg (run cfg h input s).1 := by
  intro input
  induction input with
  | nil => intro s hs; exact hs
  | cons raw input ih =>
    intro s hs
    rw [run]
    exact ih _ (step_inv cfg h raw s hh hs)

theorem stepStores_le (cfg : Config) (raw : Nat) (s : StreamCmd) (hs : BufferInv cfg s) :
    ∀ i ∈ stepStores cfg raw s, i ≤ cfg.CommandBufferSize := by
  obtain ⟨hlen, hpos, _⟩ := hs
  intro i hi
  unfold stepStores at hi
  split_ifs at hi with h1 h2 h3
  · rcases List.mem_append.1 hi with h | h
    · have := strtokStore_lt _ _ _ _ i (by simpa using h)
      omega
    · simp at h; omega
  · have hle : (s.m_pos + 1) % 256 ≤ s.m_pos + 1 := Nat.mod_le _ _
    simp at hi
    omega
  · simp at hi
  · simp at hi

/-- C16. The line buffer invariant (the array has `CommandBufferSize + 1` bytes, the
write position is at most `CommandBufferSize`, the byte at the write position is the
terminator) holds after the constructor and is kept by every iteration of the loop of
`run` on every byte (by the tokenizing at the end of line, too), by `run` on every input
and by `clearBuffer`, for callbacks under which the array keeps its size; and every index
an iteration stores to is at most `CommandBufferSize`. -/
theorem buffer_invariant (cfg : Config) (h : Handlers) (sets : List CommandSet)
    (eol : Nat) (prompt : Option String) (s : StreamCmd) (raw : Nat) (input : List Nat)
    (hh : KeepsBufferSize h) :
    BufferInv cfg (init cfg sets eol prompt) ∧
    (BufferInv cfg s → BufferInv cfg (step cfg h raw s).1) ∧
    (BufferInv cfg s → BufferInv cfg (tokenizeLine s).2) ∧
    (BufferInv cfg s → BufferInv cfg (run cfg h input s).1) ∧
    (BufferInv cfg s → BufferInv cfg s.clearBuffer) ∧
    (BufferInv cfg s → ∀ i ∈ stepStores cfg raw s, i ≤ cfg.CommandBufferSize) := by
  refine ⟨?_, step_inv cfg h raw s hh, tokenizeLine_inv cfg s, run_inv cfg h hh input s,
    fun hs => clearBuffer_inv cfg s hs.1, stepStores_le cfg raw s⟩
  unfold BufferInv init
  simp

theorem idle_keepsBufferSize : KeepsBufferSize idle :=
  ⟨fun _ _ => rfl, fun _ _ _ => rfl⟩

set_option maxRecDepth 1000000 in
/-- C16, witness: a buffer of 256 characters after 256 bytes `a`, when the write
position has wrapped to 0, and the stores of the next byte. -/
theorem buffer_invariant_witness :
    BufferInv wideConfig (run wideConfig idle (List.replicate 256 97) wide).1 ∧
    (run wideConfig idle (List.replicate 256 97) wide).1.m_pos = 0 ∧
    stepStores wideConfig 98 (run wideConfig idle (List.replicate 256 97) wide).1 = [0, 1] :=
  ⟨(buffer_invariant wideConfig idle (zeroSets wideConfig) 10 none wide 98
      (List.replicate 256 97) idle_keepsBufferSize).2.2.2.1 (by decide),
   by decide, by decide⟩

/-! ## `current` -/

/-- C18. `current()` returns the token the tokenizer produced last and changes nothing
(it only reads `m_current`): in the state the callbacks are called in it is the command
token, and after a `next()` call it is what that call returned, a token or none. -/
theorem current_is_last_token (s : StreamCmd) :
    (tokenizeLine s).2.current = (tokenizeLine s).1 ∧ s.next.2.current = s.next.1 :=
  ⟨rfl, rfl⟩

/-- C18, witness: the line `cmd a`: the command token, then `a`, then none. -/
theorem current_is_last_token_witness :
    (called "cmd a").current.map (called "cmd a").tokenString = some (ascii "cmd") ∧
    (called "cmd a").next.2.current.map (called "cmd a").next.2.tokenString
      = some (ascii "a") ∧
    (called "cmd a").next.2.next.2.current = none ∧
    (called "cmd a").next.2.current = (called "cmd a").next.1 :=
  ⟨by decide, by decide, by decide, (current_is_last_token (called "cmd a")).2⟩

/-! ## The input in pieces -/

theorem digitValue_ge (c d : Nat) (h : digitValue c = some d) : 48 ≤ c := by
  unfold digitValue at h
  split_ifs at h <;> omega

theorem digitValue_x (c d : Nat) (h : digitValue c = some d) (hd : d < 16) :
    c ≠ 120 ∧ c ≠ 88 := by
  unfold digitValue at h
  split_ifs at h <;> (injection h with h; omega)

theorem validDigits_iff (base : Nat) (cs : List Nat) :
    validDigits base cs = true ↔
      cs ≠ [] ∧ ∀ c ∈ cs, ∃ d, digitValue c = some d ∧ d < base := by
  unfold validDigits
  simp only [Bool.and_eq_true, Bool.not_eq_true', List.isEmpty_eq_false, List.all_eq_true,
    ne_eq]
  constructor
  · rintro ⟨h1, h2⟩
    refine ⟨h1, fun c hc => ?_⟩
    have := h2 c hc
    cases hd : digitValue c with
    | none => rw [hd] at this; simp at this
    | some d => rw [hd] at this; exact ⟨d, rfl, by simpa using this⟩
  · rintro ⟨h1, h2⟩
    refine ⟨h1, fun c hc => ?_⟩
    obtain ⟨d, hd, hlt⟩ := h2 c hc
    rw [hd]
    simpa using hlt

theorem digitsValue_cons (base c : Nat) (cs : List Nat) :
    digitsValue base (c :: cs)
      = (digitValue c).getD 0 * base ^ cs.length + digitsValue base cs := by
  unfold digitsValue
  rw [List.map_cons, List.reverse_cons, Nat.ofDigits_append, Nat.ofDigits_singleton,
    List.length_reverse, List.length_map]
  ring

theorem scanDigits_valid (base : Nat) (cs r : List Nat)
    (hcs : ∀ c ∈ cs, ∃ d, digitValue c = some d ∧ d < base)
    (hr : ∀ c, r.head? = some c → c = 0) : ∀ acc : Nat,
    scanDigits base (cs ++ r) acc = (acc * base ^ cs.length + digitsValue base cs, cs.length) := by
  induction cs with
  | nil =>
    intro acc
    rw [List.nil_append, scanDigits_stop base r acc (fun c hc d hd => by
      have := hr c hc
      subst this
      simp [digitValue] at hd)]
    simp [digitsValue]
  | cons c cs ih =>
    intro acc
    obtain ⟨d, hd, hlt⟩ := hcs c (List.mem_cons_self _ _)
    have hih := ih (fun e he => hcs e (List.mem_cons_of_mem _ he)) (acc * base + d)
    rw [List.cons_append, scanDigits, hd]
    simp only [hlt, ↓reduceIte, hih, List.length_cons, digitsValue_cons, hd, Option.getD_some,
      Prod.mk.injEq, and_true]
    ring

theorem parseSubject_plain (l : List Nat) (base sg : Nat) (s2 : List Nat)
    (hws : l.takeWhile isspace = [])
    (hsg : (if l.head? = some 45 ∨ l.head? = some 43 then 1 else 0) = sg)
    (hs2 : l.drop sg = s2)
    (hhex : decide ((base = 0 ∨ base = 16) ∧ s2.head? = some 48 ∧
      (s2.get? 1 = some 120 ∨ s2.get? 1 = some 88) ∧
      ((s2.get? 2).bind digitValue).any (fun d => d < 16)) = false)
    (hbase : base ≠ 0) :
    parseSubject l base =
      if (scanDigits base s2 0).2 = 0 then ⟨false, 0, 0⟩
      else ⟨decide (l.head? = some 45), (scanDigits base s2 0).1,
        sg + (scanDigits base s2 0).2⟩ := by
  unfold parseSubject
  simp only [hws, List.length_nil, List.drop_zero, hsg, hs2]
  by_cases hD : decide ((base = 0 ∨ base = 16) ∧ s2.head? = some 48 ∧
      (s2.get? 1 = some 120 ∨ s2.get? 1 = some 88) ∧
      ((s2.get? 2).bind (fun a => digitValue a)).any (fun d => d < 16)) = true
  · exact absurd (hD.symm.trans hhex) (by decide)
  · simp only [hD, Bool.false_eq_true, ↓reduceIte]
    simp only [hbase, ↓reduceIte, Nat.zero_add, Nat.add_zero]

/-- What the `strtol` family reads from a token that is a numeral in a base from 2 to
36: the sign and the value of the numeral, and its length as the bytes read. -/
theorem parseSubject_digits (base : Nat) (negative : Bool) (cs r : List Nat)
    (hb : 2 ≤ base) (hvalid : validDigits base cs = true)
    (hr : ∀ c, r.head? = some c → c = 0) :
    parseSubject (signedString negative cs ++ r) base
      = ⟨negative, digitsValue base cs, (signedString negative cs).length⟩ := by
  obtain ⟨hne, hcs⟩ := (validDigits_iff base cs).1 hvalid
  obtain ⟨c0, cs2, rfl⟩ := List.exists_cons_of_ne_nil hne
  obtain ⟨d0, hd0, hlt0⟩ := hcs c0 (List.mem_cons_self _ _)
  have hge := digitValue_ge c0 d0 hd0
  have hscan := scanDigits_valid base (c0 :: cs2) r hcs hr 0
  have hsp : isspace c0 = false := by
    simp only [isspace, decide_eq_false_iff_not]; omega
  have hb0 : base ≠ 0 := by omega
  have hget : ∀ l : List Nat, (c0 :: l).get? 1 = l.head? := by
    intro l; cases l <;> rfl
  have hhex : decide ((base = 0 ∨ base = 16) ∧ (c0 :: cs2 ++ r).head? = some 48 ∧
      ((c0 :: cs2 ++ r).get? 1 = some 120 ∨ (c0 :: cs2 ++ r).get? 1 = some 88) ∧
      (((c0 :: cs2 ++ r).get? 2).bind digitValue).any (fun d => d < 16)) = false := by
    rw [decide_eq_false_iff_not]
    rintro ⟨h1, _, h3, _⟩
    rw [List.cons_append, hget] at h3
    rcases h1 with h1 | h1
    · exact hb0 h1
    · cases cs2 with
      | nil =>
        rcases h3 with hx | hx
        · have := hr _ (by simpa using hx); omega
        · have := hr _ (by simpa using hx); omega
      | cons c1 cs3 =>
        obtain ⟨d1, hd1, hlt1⟩ := hcs c1 (by simp)
        have := digitValue_x c1 d1 hd1 (by omega)
        simp only [List.cons_append, List.head?_cons, Option.some.injEq] at h3
        omega
  have hlen : (scanDigits base (c0 :: cs2 ++ r) 0).2 ≠ 0 := by
    rw [hscan]; simp
  cases negative with
  | false =>
    have hl : signedString false (c0 :: cs2) ++ r = c0 :: cs2 ++ r := rfl
    rw [hl, parseSubject_plain (c0 :: cs2 ++ r) base 0 (c0 :: cs2 ++ r)
      (by rw [List.cons_append, List.takeWhile_cons]; simp [hsp])
      (by
        rw [if_neg]
        simp only [List.cons_append, List.head?_cons, Option.some.injEq]
        omega)
      rfl hhex hb0, if_neg hlen, hscan]
    have h45 : ¬ c0 = 45 := by omega
    simp [signedString, h45]
  | true =>
    have hl : signedString true (c0 :: cs2) ++ r = 45 :: (c0 :: cs2 ++ r) := rfl
    rw [hl, parseSubject_plain (45 :: (c0 :: cs2 ++ r)) base 1 (c0 :: cs2 ++ r)
      (by rw [List.takeWhile_cons]; simp [isspace])
      (by simp) rfl hhex hb0, if_neg hlen, hscan]
    simp [signedString]
    omega


theorem signedString_length_ne (negative : Bool) (cs : List Nat) (base : Nat)
    (hvalid : validDigits base cs = true) : (signedString negative cs).length ≠ 0 := by
  obtain ⟨hne, _⟩ := (validDigits_iff base cs).1 hvalid
  cases cs with
  | nil => exact absurd rfl hne
  | cons c cs => cases negative <;> simp [signedString]

theorem strtol_digits (bits base : Nat) (negative : Bool) (cs r : List Nat)
    (hb : 2 ≤ base) (hb2 : base ≤ 36) (hvalid : validDigits base cs = true)
    (hr : ∀ c, r.head? = some c → c = 0) :
    strtol bits (signedString negative cs ++ r) (base : Int) =
      if signedValue base negative cs > signedMax bits then
        ⟨signedMax bits, (signedString negative cs).length, 34⟩
      else if signedValue base negative cs < signedMin bits then
        ⟨signedMin bits, (signedString negative cs).length, 34⟩
      else ⟨signedValue base negative cs, (signedString negative cs).length, 0⟩ := by
  unfold strtol
  rw [if_neg (by omega)]
  simp only [Int.toNat_ofNat, parseSubject_digits base negative cs r hb hvalid hr]
  rfl

theorem strtoul_digits (bits base : Nat) (negative : Bool) (cs r : List Nat)
    (hb : 2 ≤ base) (hb2 : base ≤ 36) (hvalid : validDigits base cs = true)
    (hr : ∀ c, r.head? = some c → c = 0) :
    strtoul bits (signedString negative cs ++ r) (base : Int) =
      if ((digitsValue base cs : Nat) : Int) > unsignedMax bits then
        ⟨unsignedMax bits, (signedString negative cs).length, 34⟩
      else
        ⟨if negative = true then toUnsigned bits (-((digitsValue base cs : Nat) : Int))
          else ((digitsValue base cs : Nat) : Int), (signedString negative cs).length, 0⟩ := by
  unfold strtoul
  rw [if_neg (by omega)]
  simp only [Int.toNat_ofNat, parseSubject_digits base negative cs r hb hvalid hr]

/-- A getter that converts with `strtol`, on a token that is a numeral in the base: a
value outside the range of the conversion's type gives `ArgInvalid`, another value is
compared with the bounds. -/
theorem getNum_strtol_digits (conv : Int → Int) (bits : Nat) (n min max : Int) (base : Nat)
    (s : StreamCmd) (p : Nat) (negative : Bool) (cs : List Nat)
    (hb : 2 ≤ base) (hb2 : base ≤ 36) (hnext : s.next.1 = some p)
    (htok : s.next.2.tokenString p = signedString negative cs)
    (hvalid : validDigits base cs = true) :
    getNum intLt intGt conv (strtol bits) n min max base s =
      if signedValue base negative cs > signedMax bits ∨
          signedValue base negative cs < signedMin bits then
        (GetResult.ArgInvalid, n, s.next.2)
      else if signedValue base negative cs < min then (GetResult.ArgTooSmall, n, s.next.2)
      else if signedValue base negative cs > max then (GetResult.ArgTooLarge, n, s.next.2)
      else (GetResult.ArgOk, conv (signedValue base negative cs), s.next.2) := by
  obtain ⟨r, hr, hr0⟩ := drop_eq_cstr_append s.next.2.m_commandLine p
  have htok2 : cstr s.next.2.m_commandLine p = signedString negative cs := htok
  rw [htok2] at hr
  have hlen := signedString_length_ne negative cs base hvalid
  rw [getNum_some _ _ _ _ _ _ _ _ _ p hnext, hr,
    strtol_digits bits base negative cs r hb hb2 hvalid hr0]
  by_cases h1 : signedValue base negative cs > signedMax bits
  · simp [h1]
  · by_cases h2 : signedValue base negative cs < signedMin bits
    · simp [h1, h2]
    · simp only [h1, h2, ↓reduceIte, ne_eq, not_true_eq_false, hlen, or_self, intLt, intGt,
        decide_eq_true_eq]

/-- A getter that converts with `strtoul`, on a token that is a numeral in the base: a
magnitude above the greatest value of the conversion's type gives `ArgInvalid`;
otherwise the value, negated in the unsigned type behind a minus sign, is compared with
the bounds. -/
theorem getNum_strtoul_digits (conv : Int → Int) (bits : Nat) (n min max : Int) (base : Nat)
    (s : StreamCmd) (p : Nat) (negative : Bool) (cs : List Nat)
    (hb : 2 ≤ base) (hb2 : base ≤ 36) (hnext : s.next.1 = some p)
    (htok : s.next.2.tokenString p = signedString negative cs)
    (hvalid : validDigits base cs = true) :
    getNum intLt intGt conv (strtoul bits) n min max base s =
      if ((digitsValue base cs : Nat) : Int) > unsignedMax bits then
        (GetResult.ArgInvalid, n, s.next.2)
      else if (if negative = true then toUnsigned bits (-((digitsValue base cs : Nat) : Int))
          else ((digitsValue base cs : Nat) : Int)) < min then
        (GetResult.ArgTooSmall, n, s.next.2)
      else if (if negative = true then toUnsigned bits (-((digitsValue base cs : Nat) : Int))
          else ((digitsValue base cs : Nat) : Int)) > max then
        (GetResult.ArgTooLarge, n, s.next.2)
      else (GetResult.ArgOk,
        conv (if negative = true then toUnsigned bits (-((digitsValue base cs : Nat) : Int))
          else ((digitsValue base cs : Nat) : Int)), s.next.2) := by
  obtain ⟨r, hr, hr0⟩ := drop_eq_cstr_append s.next.2.m_commandLine p
  have htok2 : cstr s.next.2.m_commandLine p = signedString negative cs := htok
  rw [htok2] at hr
  have hlen := signedString_length_ne negative cs base hvalid
  rw [getNum_some _ _ _ _ _ _ _ _ _ p hnext, hr,
    strtoul_digits bits base negative cs r hb hb2 hvalid hr0]
  by_cases h1 : ((digitsValue base cs : Nat) : Int) > unsignedMax bits
  · simp [h1]
  · simp only [h1, ↓reduceIte, ne_eq, not_true_eq_false, hlen, or_self, intLt, intGt,
      decide_eq_true_eq]

theorem signed_range_mono (a b : Nat) (ha : 0 < a) (hab : a ≤ b) :
    signedMin b ≤ signedMin a ∧ signedMax a ≤ signedMax b := by
  unfold signedMin signedMax
  have h : (2 : Int) ^ (a - 1) ≤ 2 ^ (b - 1) :=
    pow_le_pow_right₀ (by norm_num) (by omega)
  omega

theorem unsignedMax_mono (a b : Nat) (hab : a ≤ b) : unsignedMax a ≤ unsignedMax b := by
  unfold unsignedMax
  have h : (2 : Int) ^ a ≤ 2 ^ b := pow_le_pow_right₀ (by norm_num) hab
  omega

theorem toUnsigned_of_range (bits : Nat) (v : Int) (hlo : 0 ≤ v) (hhi : v ≤ unsignedMax bits) :
    toUnsigned bits v = v := by
  unfold toUnsigned
  unfold unsignedMax at hhi
  exact Int.emod_eq_of_lt hlo (by omega)

/-- The integer getters called with their default bounds accept every decimal numeral
whose value the output type holds (for the unsigned getters a numeral without a minus
sign): the defaults are the least and the greatest value of the output type. -/
theorem intGetter_default_accepts (g : IntGetter) (lim : Limits) (n : Int) (s : StreamCmd)
    (p : Nat) (negative : Bool) (cs : List Nat)
    (hint : 0 < lim.intBits) (hle : lim.intBits ≤ lim.longBits) (hll : 0 < lim.llongBits)
    (hnext : s.next.1 = some p)
    (htok : s.next.2.tokenString p = signedString negative cs)
    (hvalid : validDigits 10 cs = true)
    (hlo : g.MIN lim ≤ signedValue 10 negative cs)
    (hhi : signedValue 10 negative cs ≤ g.MAX lim)
    (hneg : g.isSigned = false → negative = false) :
    g.callDefault lim n s = (GetResult.ArgOk, signedValue 10 negative cs, s.next.2) := by
  have hs : ∀ conv bits min max, getNum intLt intGt conv (strtol bits) n min max 10 s = _ :=
    fun conv bits min max => getNum_strtol_digits conv bits n min max 10 s p negative cs
      (by decide) (by decide) hnext htok hvalid
  have hu : ∀ conv bits min max, getNum intLt intGt conv (strtoul bits) n min max 10 s = _ :=
    fun conv bits min max => getNum_strtoul_digits conv bits n min max 10 s p negative cs
      (by decide) (by decide) hnext htok hvalid
  have m1 := signed_range_mono lim.intBits lim.longBits hint hle
  have m2 := unsignedMax_mono lim.intBits lim.longBits hle
  have hv : negative = false →
      signedValue 10 negative cs = ((digitsValue 10 cs : Nat) : Int) := by
    intro h; subst h; rfl
  cases g
  all_goals
    simp only [IntGetter.isSigned, IntGetter.MIN, IntGetter.MAX, IntGetter.callDefault,
      IntGetter.call, getInt, getUInt, getLong, getULong, getLLong, getULLong] at hlo hhi hneg ⊢
  · rw [hs, if_neg (by omega), if_neg (by omega), if_neg (by omega),
      toSigned_of_range _ _ hint hlo hhi]
  · have hn := hneg trivial
    have hv2 := hv hn
    subst hn
    rw [hu]
    simp only [Bool.false_eq_true, ↓reduceIte]
    rw [if_neg (by omega), if_neg (by omega), if_neg (by omega),
      toUnsigned_of_range _ _ (by omega) (by omega), hv2]
  · rw [hs, if_neg (by omega), if_neg (by omega), if_neg (by omega),
      toSigned_of_range _ _ (by omega) hlo hhi]
  · have hn := hneg trivial
    have hv2 := hv hn
    subst hn
    rw [hu]
    simp only [Bool.false_eq_true, ↓reduceIte]
    rw [if_neg (by omega), if_neg (by omega), if_neg (by omega),
      toUnsigned_of_range _ _ (by omega) (by omega), hv2]
  · rw [hs, if_neg (by omega), if_neg (by omega), if_neg (by omega),
      toSigned_of_range _ _ hll hlo hhi]
  · have hn := hneg trivial
    have hv2 := hv hn
    subst hn
    rw [hu]
    simp only [Bool.false_eq_true, ↓reduceIte]
    rw [if_neg (by omega), if_neg (by omega), if_neg (by omega),
      toUnsigned_of_range _ _ (by omega) (by omega), hv2]

end StreamCmd
